import Mathlib

/-!
# Verification of `mc_world_parser`

A shallow embedding, in Lean 4, of the Minecraft world-parsing library
`mc_world_parser`, together with theorems settling the frozen claims
C1–C10 about it.

Conventions of the embedding:

* Rust `i32`/`i64` values are modelled as `Int` (the programs under
  consideration stay far from overflow at every input we evaluate);
  unsigned 64-bit intermediate values are modelled as `Nat` with explicit
  `% 2 ^ 64` where Rust wrapping semantics matter.
* Rust truncating division `/` on signed integers is `Int.tdiv`, Rust `%`
  is `Int.tmod`, and `i32::rem_euclid` is `Int.emod`.
* Fallible Rust code returns `Except`-like values.  A Rust *panic*
  (out-of-bounds index, `unwrap` on `Err`/`None`, `unimplemented!`) is a
  distinct outcome, modelled by the `POut.panic` constructor of the
  `POut` monad below, so that "returns an error" and "panics" are
  distinguishable propositions.
* `Vec<T>` is `List T`; `BTreeMap<String, String>` is a key-sorted
  association list (`Props.insert` keeps the list strictly sorted, which
  matches the map's structural equality and its key-sorted iteration
  order).

The repository snapshot mixes two generations of the code: `parser.rs`
and `parser/region.rs` predate `parser/section.rs`, `parser/chunk.rs`,
`parser/mod.rs` and `loader.rs` (e.g. `region.rs` still builds sections
as plain lists of block-name strings and calls a five-argument
`Chunk::new`).  Each function below is embedded faithfully from the file
that contains it; the older region-file machinery gets its own record
types (`RSection`, `RChunk`, `RRegion`) mirroring the shapes it actually
constructs (the shapes of `parser.rs`).
-/

set_option maxRecDepth 20000

namespace McWorld

/-- Rust truncating division on signed integers (`i32::div`). -/
def rustDiv (a b : Int) : Int := Int.tdiv a b

/-- Rust truncating remainder on signed integers (`i32::rem`, the `%`
operator). -/
def rustRem (a b : Int) : Int := Int.tmod a b

/-- `Position` from `parser/mod.rs`: a signed integer triple in world
coordinates. -/
structure Position where
  x : Int
  y : Int
  z : Int
deriving DecidableEq, Repr

namespace Position

/-- `Position::new` (`parser/mod.rs`). -/
def new (x y z : Int) : Position := ⟨x, y, z⟩

/-- `Position::region_in_world` (`parser/mod.rs`): `(x >> 9, 0, z >> 9)`
with arithmetic right shift, i.e. floor division by 512. -/
def region_in_world (p : Position) : Position :=
  new (Int.fdiv p.x 512) 0 (Int.fdiv p.z 512)

/-- `Position::chunk_in_region` (`parser/mod.rs` lines 52–57):
`x/16 - (x < 0) as i32` on the x and z axes (truncating division, then
an extra 1 subtracted whenever the coordinate is negative). -/
def chunk_in_region (p : Position) : Position :=
  let x := rustDiv p.x 16 - (if p.x < 0 then 1 else 0)
  let z := rustDiv p.z 16 - (if p.z < 0 then 1 else 0)
  new x 0 z

/-- `Position::section_index_in_chunk` (`parser/mod.rs` lines 59–67). -/
def section_index_in_chunk (p : Position) : Option Nat :=
  if ¬ (-64 ≤ p.y ∧ p.y < 320) then none
  else some (rustDiv (p.y + 64) 16).toNat

/-- `Position::block_in_section` (`parser/mod.rs` lines 69–74): each axis
reduced with `rem_euclid(16)`. -/
def block_in_section (p : Position) : Position :=
  new (p.x.emod 16) (p.y.emod 16) (p.z.emod 16)

/-- `Position::block_index_in_section` (`parser/mod.rs` lines 76–80). -/
def block_index_in_section (p : Position) : Nat :=
  let q := p.block_in_section
  (q.y * 16 * 16 + q.z * 16 + q.x).toNat

end Position

/-- The x-and-z reassembly property claimed by the spec (§4.1, §8.1):
`chunk_in_region(p) · 16 + block_in_section(p)` recovers `p` on the x
and z axes, and the y component of `block_in_section` is the Euclidean
remainder of `p.y` by 16. -/
def reassembles (p : Position) : Prop :=
  (p.chunk_in_region).x * 16 + (p.block_in_section).x = p.x ∧
  (p.chunk_in_region).z * 16 + (p.block_in_section).z = p.z ∧
  (p.block_in_section).y = p.y.emod 16

instance (p : Position) : Decidable (reassembles p) := by
  unfold reassembles; infer_instance

end McWorld

namespace McWorld

/-- Modelled from the spec: the error type of the external `inbt`
compound-tag decoder (§6 "Compound-tag decode failure as surfaced by the
external decoder, wrapped unchanged").  Only the shape matters: a lookup
can fail to find a field or find one of the wrong type. -/
inductive NbtParseError where
  | fieldNotFound (name : String)
  | wrongType (name : String)
deriving DecidableEq, Repr

/-- `McaParseError` from `parser/parse_error.rs`. -/
inductive McaParseError where
  | worldLoadError
  | nbtParseError (e : NbtParseError)
  | invalidWorld
  | endOfData
deriving DecidableEq, Repr

/-- Outcome of running a piece of Rust code that may return an error or
panic: `ok` models a normal return, `err` an `Err(McaParseError)`, and
`panic` any Rust panic (out-of-bounds indexing, `unwrap`,
`unimplemented!`). -/
inductive POut (α : Type) where
  | ok (a : α)
  | err (e : McaParseError)
  | panic
deriving DecidableEq, Repr

instance : Monad POut where
  pure := .ok
  bind x f := match x with
    | .ok a => f a
    | .err e => .err e
    | .panic => .panic

/-- Structural list indexing (`Vec` indexing that returns `None` out of
range instead of panicking is spelled `listGet?`; the panicking Rust
index is modelled by matching on its result).  This is extensionally
`List.getElem?` (`listGet?_eq_getElem?` below) but avoids the
`List.length` computation of the library instance, keeping kernel
evaluation shallow. -/
def listGet? {α : Type} : List α → Nat → Option α
  | [], _ => none
  | a :: _, 0 => some a
  | _ :: as, n + 1 => listGet? as n

/-- Modelled from the spec: the subset of the external `inbt::NbtTag`
shape this library consumes (§6): every tag carries its name; compounds
and lists carry children, long arrays carry `i64` payloads. -/
inductive NbtTag where
  | byte (name : String) (v : Int)
  | int (name : String) (v : Int)
  | long (name : String) (v : Int)
  | string (name : String) (v : String)
  | list (name : String) (items : List NbtTag)
  | compound (name : String) (items : List NbtTag)
  | longArray (name : String) (vs : List Int)

namespace NbtTag

/-- The name a tag carries. -/
def name : NbtTag → String
  | .byte n _ | .int n _ | .long n _ | .string n _
  | .list n _ | .compound n _ | .longArray n _ => n

/-- Modelled from the spec: `NbtTag::get`, child lookup by name inside a
compound. -/
def get (t : NbtTag) (key : String) : Except NbtParseError NbtTag :=
  match t with
  | .compound _ items =>
    match items.find? (fun c => c.name = key) with
    | some c => .ok c
    | none => .error (.fieldNotFound key)
  | _ => .error (.wrongType key)

/-- Modelled from the spec: `NbtTag::get_string`. -/
def get_string (t : NbtTag) (key : String) : Except NbtParseError String :=
  match t.get key with
  | .error e => .error e
  | .ok (.string _ v) => .ok v
  | .ok _ => .error (.wrongType key)

/-- Modelled from the spec: `NbtTag::get_int`. -/
def get_int (t : NbtTag) (key : String) : Except NbtParseError Int :=
  match t.get key with
  | .error e => .error e
  | .ok (.int _ v) => .ok v
  | .ok _ => .error (.wrongType key)

/-- Modelled from the spec: `NbtTag::get_list`. -/
def get_list (t : NbtTag) (key : String) : Except NbtParseError (List NbtTag) :=
  match t.get key with
  | .error e => .error e
  | .ok (.list _ items) => .ok items
  | .ok _ => .error (.wrongType key)

/-- Modelled from the spec: `NbtTag::get_compound`. -/
def get_compound (t : NbtTag) (key : String) : Except NbtParseError (List NbtTag) :=
  match t.get key with
  | .error e => .error e
  | .ok (.compound _ items) => .ok items
  | .ok _ => .error (.wrongType key)

/-- Modelled from the spec: `NbtTag::get_long_array`. -/
def get_long_array (t : NbtTag) (key : String) : Except NbtParseError (List Int) :=
  match t.get key with
  | .error e => .error e
  | .ok (.longArray _ vs) => .ok vs
  | .ok _ => .error (.wrongType key)

end NbtTag

/-- Insertion into the key-sorted association list modelling
`BTreeMap<String, String>`. -/
def Props.insert : List (String × String) → String → String → List (String × String)
  | [], k, v => [(k, v)]
  | (k', v') :: rest, k, v =>
    if k < k' then (k, v) :: (k', v') :: rest
    else if k = k' then (k, v) :: rest
    else (k', v') :: Props.insert rest k v

/-- `Block` from `parser/mod.rs`: identifier plus key-sorted property
map. -/
structure Block where
  identifier : String
  properties : List (String × String)
deriving DecidableEq, Repr

namespace Block

/-- `Block::new` (`parser/mod.rs` lines 96–113): the mandatory `Name`
string is the identifier; every string-typed child of the optional
`Properties` compound contributes one pair; non-string children are
skipped. -/
def new (nbt_data : NbtTag) : Except NbtParseError Block :=
  match nbt_data.get_string "Name" with
  | .error e => .error e
  | .ok identifier =>
    let nbt_properties :=
      match nbt_data.get_compound "Properties" with
      | .ok l => l
      | .error _ => []
    let properties := nbt_properties.foldl
      (fun m p =>
        match p with
        | .string name value => Props.insert m name value
        | _ => m) []
    .ok ⟨identifier, properties⟩

/-- `Block::default` (`parser/mod.rs`). -/
def default : Block := ⟨"minecraft:air", []⟩

/-- The block value `parser/section.rs` builds when it calls
`Block::new(name)` with just a block-name string: the identifier is the
name and the property map is empty. -/
def fromName (name : String) : Block := ⟨name, []⟩

end Block

/-- Sequential traversal in `POut`, short-circuiting on the first error
or panic (the behaviour of a Rust `for` loop filling a vector), written
with an accumulator so that evaluation inside the kernel stays shallow.
`mapPOut_eq_naive` below identifies it with the obvious structural
recursion, which the proofs use. -/
def mapPOutGo {α β : Type} (f : α → POut β) : List α → List β → POut (List β)
  | [], acc => .ok acc.reverse
  | a :: as, acc =>
    match f a with
    | .panic => .panic
    | .err e => .err e
    | .ok b => mapPOutGo f as (b :: acc)

/-- Sequential traversal in `POut` (accumulator form). -/
def mapPOut {α β : Type} (f : α → POut β) (l : List α) : POut (List β) :=
  mapPOutGo f l []

/-- The structural-recursion description of `mapPOut`, used by the
proofs. -/
def mapPOutN {α β : Type} (f : α → POut β) : List α → POut (List β)
  | [] => .ok []
  | a :: as =>
    match f a with
    | .panic => .panic
    | .err e => .err e
    | .ok b =>
      match mapPOutN f as with
      | .panic => .panic
      | .err e => .err e
      | .ok bs => .ok (b :: bs)

/-- `Section` from `parser/section.rs`: 4096 palette indices (`Vec<u16>`)
plus the palette. -/
structure Section where
  blocks : List Nat
  palette : List Block
deriving DecidableEq, Repr

/-- The `while usize::pow(2, palette_bits) < palette_size` bump loop in
`Section::bits_needed_for_palette`, given a fuel parameter so that the
recursion is structural (hence kernel-computable).  Because `b < 2 ^ b`,
the loop body can run at most `n - b` times, so any fuel of at least `n`
is enough; `while2pow_fuel_irrel` below makes that precise. -/
def while2powFuel : Nat → Nat → Nat → Nat
  | 0, _, b => b
  | fuel + 1, n, b => if 2 ^ b < n then while2powFuel fuel n (b + 1) else b

/-- The bump loop of `Section::bits_needed_for_palette` with the fuel
instantiated sufficiently. -/
def while2pow (n b : Nat) : Nat := while2powFuel n n b

/-- `usize::checked_ilog2().unwrap_or(0)` — floor of log₂ for positive
input, 0 for input 0 — as a structural (fuel-based) recursion; halving
can happen at most `n` times, so fuel `n` always suffices. -/
def ilog2Fuel : Nat → Nat → Nat
  | 0, _ => 0
  | fuel + 1, n => if 2 ≤ n then ilog2Fuel fuel (n / 2) + 1 else 0

/-- `checked_ilog2().unwrap_or(0)` with the fuel instantiated
sufficiently. -/
def checked_ilog2 (n : Nat) : Nat := ilog2Fuel n n

/-- Two's-complement reinterpretation of an `i64` as a `u64`
(18446744073709551616 = 2^64, written as a literal so that kernel
evaluation is immediate). -/
def toU64 (v : Int) : Nat := (v % (18446744073709551616 : Int)).toNat

namespace Section

/-- `Section::bits_needed_for_palette` (`parser/section.rs` lines
19–34). -/
def bits_needed_for_palette (palette_size : Nat) : Nat :=
  if palette_size = 1 then 0
  else
    let palette_bits := while2pow palette_size (checked_ilog2 palette_size)
    let palette_bits := if palette_bits < 4 then 4 else palette_bits
    if palette_bits > 8 then 15 else palette_bits

/-- The mask-building loop body of `Section::palette_mask`: `b`
iterations of `mask <<= 1; mask |= 1`. -/
def palette_maskAux : Nat → Nat
  | 0 => 0
  | b + 1 => palette_maskAux b <<< 1 ||| 1

/-- `Section::palette_mask` (`parser/section.rs` lines 36–47), including
its out-of-range panic guard. -/
def palette_mask (palette_bits : Nat) : POut Nat :=
  if 64 < palette_bits then .panic else .ok (palette_maskAux palette_bits)

/-- One iteration of the cell-decoding loop of `Section::parse_section`
(`parser/section.rs` lines 67–89) at linear position `block_pos`:
LSB-first extraction, then palette resolution (an out-of-range palette
index panics, as does a palette entry without a `Name`). -/
def parseCell (block_data : List Int) (palette : List NbtTag)
    (palette_bits pmask epl : Nat) (block_pos : Nat) : POut Block :=
  let block_data_index := block_pos / epl
  let block_data_sub_index := block_pos % epl
  let mask_shift := palette_bits * block_data_sub_index
  match listGet? block_data block_data_index with
  | none => .panic
  | some l =>
    let palette_index := (toU64 l &&& (pmask <<< mask_shift)) >>> mask_shift
    match listGet? palette palette_index with
    | none => .panic
    | some entry =>
      match entry.get_string "Name" with
      | .ok block_name => .ok (Block.fromName block_name)
      | .error _ => .panic

/-- One step of the re-palette loop of `Section::parse_section`
(`parser/section.rs` lines 91–99): push the block if unseen, then record
the index of its first occurrence. -/
def dedupStep (pal : List Block) (idxs : List Nat) (b : Block) :
    List Block × List Nat :=
  let pal' := if pal.contains b then pal else pal ++ [b]
  let index := pal'.findIdx (fun e => e = b)
  (pal', idxs ++ [index])

/-- `Section::parse_section` (`parser/section.rs` lines 49–105). -/
def parse_section (tag : NbtTag) : POut Section :=
  match tag.get "block_states" with
  | .error e => .err (.nbtParseError e)
  | .ok block_states =>
  match block_states.get_list "palette" with
  | .error e => .err (.nbtParseError e)
  | .ok palette =>
  if palette.length = 1 then
    match listGet? palette 0 with
    | none => .panic
    | some p0 =>
      match p0.get_string "Name" with
      | .error e => .err (.nbtParseError e)
      | .ok name => .ok ⟨List.replicate 4096 0, [Block.fromName name]⟩
  else
    match block_states.get_long_array "data" with
    | .error e => .err (.nbtParseError e)
    | .ok block_data =>
      let palette_bits := bits_needed_for_palette palette.length
      match palette_mask palette_bits with
      | .panic => .panic
      | .err e => .err e
      | .ok pmask =>
        let palette_entries_per_long := 64 / palette_bits
        match mapPOut
            (parseCell block_data palette palette_bits pmask
              palette_entries_per_long)
            (List.range 4096) with
        | .panic => .panic
        | .err e => .err e
        | .ok blocks =>
          let st := blocks.foldl (fun st b => dedupStep st.1 st.2 b) ([], [])
          .ok ⟨st.2, st.1⟩

/-- `Section::get` (`parser/section.rs` lines 179–181):
`palette[blocks[block_index_in_section(pos)]]`, panicking on any
out-of-bounds index. -/
def get (s : Section) (pos : Position) : POut Block :=
  match listGet? s.blocks pos.block_index_in_section with
  | none => .panic
  | some i =>
    match listGet? s.palette i with
    | none => .panic
    | some b => .ok b

end Section

/-- Two's-complement reinterpretation of an `i32` as a `u32`
(4294967296 = 2^32). -/
def toU32 (v : Int) : Nat := (v % (4294967296 : Int)).toNat

/-- Reading a `u32` bit pattern back as an `i32` (2147483648 = 2^31). -/
def toI32 (u : Nat) : Int :=
  if u % 4294967296 < 2147483648 then (u % 4294967296 : Nat)
  else (u % 4294967296 : Nat) - 4294967296

/-- Modelled from the spec: the emission loop of `mc_datatypes::VarInt`
(the protocol's "var-int", §6 glossary:  a variable-width integer, seven
payload bits per byte, least-significant group first, high bit of a byte
flagging continuation), on the `u32` reinterpretation of the `i32`.
Structured with fuel; five bytes always suffice for 32 bits. -/
def varIntAux : Nat → Nat → List Nat
  | 0, u => [u % 128]
  | fuel + 1, u => if u < 128 then [u] else (u % 128 + 128) :: varIntAux fuel (u / 128)

/-- Modelled from the spec: `VarInt::new(i).bytes`. -/
def VarInt.bytes (i : Int) : List Nat := varIntAux 5 (toU32 i)

/-- Var-int decoding, the inverse loop of `varIntAux`. -/
def varIntDecAux : Nat → List Nat → Option (Nat × List Nat)
  | 0, _ => none
  | _ + 1, [] => none
  | fuel + 1, b :: rest =>
    if b < 128 then some (b, rest)
    else
      match varIntDecAux fuel rest with
      | none => none
      | some (v, r) => some ((b - 128) + 128 * v, r)

/-- Var-int decoding to a signed 32-bit value plus the remaining bytes. -/
def varIntDec (bs : List Nat) : Option (Int × List Nat) :=
  (varIntDecAux 5 bs).map (fun r => (toI32 r.1, r.2))

/-- Decode `k` consecutive var-ints. -/
def varIntDecs : Nat → List Nat → Option (List Int × List Nat)
  | 0, bs => some ([], bs)
  | k + 1, bs =>
    match varIntDec bs with
    | none => none
    | some (v, rest) =>
      match varIntDecs k rest with
      | none => none
      | some (vs, rest') => some (v :: vs, rest')

/-- `u64::to_be_bytes`: the eight big-endian bytes of a 64-bit value. -/
def u64BE (v : Nat) : List Nat :=
  [v >>> 56 &&& 255, v >>> 48 &&& 255, v >>> 40 &&& 255, v >>> 32 &&& 255,
   v >>> 24 &&& 255, v >>> 16 &&& 255, v >>> 8 &&& 255, v &&& 255]

/-- `u16::to_be_bytes`: the two big-endian bytes of a 16-bit value. -/
def u16BE (v : Nat) : List Nat := [v >>> 8 &&& 255, v &&& 255]

/-- Read `k` big-endian 64-bit longs from a byte list. -/
def longsFromBytes : Nat → List Nat → Option (List Nat × List Nat)
  | 0, bs => some ([], bs)
  | k + 1, b0 :: b1 :: b2 :: b3 :: b4 :: b5 :: b6 :: b7 :: bs =>
    match longsFromBytes k bs with
    | none => none
    | some (ls, rest) =>
      some ((((((((b0 * 256 + b1) * 256 + b2) * 256 + b3) * 256 + b4) * 256 + b5)
        * 256 + b6) * 256 + b7) :: ls, rest)
  | _ + 1, _ => none

/-- `slice::chunks(n)` with a fuel argument making the recursion
structural; fuel `≥ length` is always enough when `n > 0`. -/
def chunksOfFuel {α : Type} : Nat → Nat → List α → List (List α)
  | 0, _, _ => []
  | _ + 1, _, [] => []
  | fuel + 1, n, l => l.take n :: chunksOfFuel fuel n (l.drop n)

/-- `slice::chunks(n)`: split a list into consecutive chunks of size `n`
(last chunk possibly shorter). -/
def chunksOf {α : Type} (n : Nat) (l : List α) : List (List α) :=
  chunksOfFuel l.length n l

namespace Section

/-- The first loop of `Section::network_data` (`parser/section.rs` lines
112–118): build the deduplicated palette of used blocks in first-use
order and count the non-air cells.  Indexing `self.palette` with a stored
index out of range panics. -/
def pass1Go (oldPal : List Block) : List Nat → List Block → Nat →
    POut (List Block × Nat)
  | [], pal, cnt => .ok (pal, cnt)
  | bi :: rest, pal, cnt =>
    match listGet? oldPal bi with
    | none => .panic
    | some block =>
      let pal' := if pal.contains block then pal else pal ++ [block]
      let cnt' := cnt + (if block.identifier = "minecraft:air" then 0 else 1)
      pass1Go oldPal rest pal' cnt'

/-- The long-packing loop body of the indirect branch of
`Section::network_data` (`parser/section.rs` lines 137–151): one output
long per chunk of indices, each index resolved through the old palette to
a block and through the new palette to its position, OR-ed in LSB-first. -/
def packIndirectGo (oldPal newPal : List Block) (bits : Nat) :
    List Nat → Nat → Nat → POut Nat
  | [], _, long => .ok long
  | bi :: rest, i, long =>
    match listGet? oldPal bi with
    | none => .panic
    | some block =>
      match newPal.findIdx? (fun e => e = block) with
      | none => .panic
      | some palette_index =>
        packIndirectGo oldPal newPal bits rest (i + 1)
          (long ||| (palette_index <<< (i * bits)))

/-- The long-packing loop body of the direct branch of
`Section::network_data` (`parser/section.rs` lines 157–166): the global
id (an `i32` cast to `u64`, hence sign-extended) is shifted in LSB-first;
the `u64` shift discards bits past 63, hence the `% 2 ^ 64`. -/
def packDirectGo (oldPal : List Block) (id_of : Block → Int) (bits : Nat) :
    List Nat → Nat → Nat → POut Nat
  | [], _, long => .ok long
  | bi :: rest, i, long =>
    match listGet? oldPal bi with
    | none => .panic
    | some block =>
      let block_id := toU64 (id_of block)
      packDirectGo oldPal id_of bits rest (i + 1)
        (long ||| ((block_id <<< (i * bits)) % 18446744073709551616))

/-- The fabricated biome container appended at the end of
`Section::network_data` (`parser/section.rs` lines 171–174). -/
def biomeTrailer : List Nat := [0] ++ VarInt.bytes 8 ++ [0]

/-- `Section::network_data` (`parser/section.rs` lines 108–176). -/
def network_data (s : Section) (id_of : Block → Int) : POut (List Nat) :=
  match pass1Go s.palette s.blocks [] 0 with
  | .panic => .panic
  | .err e => .err e
  | .ok (palette, block_count) =>
    let bits_per_entry := bits_needed_for_palette palette.length
    let header := u16BE block_count ++ [bits_per_entry]
    if bits_per_entry = 0 then
      match palette[0]? with
      | none => .panic
      | some b0 =>
        .ok (header ++ VarInt.bytes (id_of b0) ++ [0] ++ biomeTrailer)
    else if 4 ≤ bits_per_entry ∧ bits_per_entry < 9 then
      let entries_per_long := 64 / bits_per_entry
      match mapPOut (fun c => packIndirectGo s.palette palette bits_per_entry c 0 0)
          (chunksOf entries_per_long s.blocks) with
      | .panic => .panic
      | .err e => .err e
      | .ok longs =>
        .ok (header ++ VarInt.bytes palette.length
          ++ palette.flatMap (fun e => VarInt.bytes (id_of e))
          ++ VarInt.bytes longs.length ++ longs.flatMap u64BE ++ biomeTrailer)
    else
      let entries_per_long := 64 / bits_per_entry
      match mapPOut (fun c => packDirectGo s.palette id_of bits_per_entry c 0 0)
          (chunksOf entries_per_long s.blocks) with
      | .panic => .panic
      | .err e => .err e
      | .ok longs =>
        .ok (header ++ VarInt.bytes longs.length ++ longs.flatMap u64BE
          ++ biomeTrailer)

end Section

/-- LSB-first extraction of packed-entry number `p` from a run of 64-bit
longs, exactly as the spec words it (§4.3 step 4): long index
`p / entries_per_long`, shift `bits · (p mod entries_per_long)`, mask
`(1 <<< bits) - 1`. -/
def extractLSB (bits : Nat) (longs : List Nat) (p : Nat) : Nat :=
  let epl := 64 / bits
  (longs.getD (p / epl) 0 >>> (bits * (p % epl))) &&& (2 ^ bits - 1)

/-- `Option`-valued traversal (for the decoder), accumulator form for
shallow kernel evaluation; `mapOpt_eq_naive` identifies it with the
structural recursion. -/
def mapOptGo {α β : Type} (f : α → Option β) : List α → List β → Option (List β)
  | [], acc => some acc.reverse
  | a :: as, acc =>
    match f a with
    | none => none
    | some b => mapOptGo f as (b :: acc)

/-- `Option`-valued traversal (for the decoder). -/
def mapOpt {α β : Type} (f : α → Option β) (l : List α) : Option (List β) :=
  mapOptGo f l []

/-- The structural-recursion description of `mapOpt`. -/
def mapOptN {α β : Type} (f : α → Option β) : List α → Option (List β)
  | [] => some []
  | a :: as =>
    match f a with
    | none => none
    | some b =>
      match mapOptN f as with
      | none => none
      | some bs => some (b :: bs)

/-- The same-generation decoder the round-trip claim quantifies over:
read the 16-bit big-endian block count, the bits-per-entry byte, and then
the container in the claimed layout — single-valued (`bits = 0`: one
var-int global id, then a zero data-array length), indirect
(`bits < 9`: var-int palette length, that many var-int global ids,
var-int long count, the big-endian longs, entries resolved LSB-first
through the just-read palette), or direct (`bits ≥ 9`: var-int long
count, big-endian longs, entries read LSB-first as global ids).  Yields
the block count and the 4096-entry grid of global ids. -/
def networkDecode (bytes : List Nat) : Option (Nat × List Int) :=
  match bytes with
  | c0 :: c1 :: bits :: rest =>
    let count := c0 * 256 + c1
    if bits = 0 then
      match varIntDec rest with
      | none => none
      | some (id, rest1) =>
        match rest1 with
        | 0 :: _ => some (count, List.replicate 4096 id)
        | _ => none
    else if bits < 9 then
      match varIntDec rest with
      | none => none
      | some (n, rest1) =>
        if n < 0 then none
        else
          match varIntDecs n.toNat rest1 with
          | none => none
          | some (ids, rest2) =>
            match varIntDec rest2 with
            | none => none
            | some (nlongs, rest3) =>
              if nlongs < 0 then none
              else
                match longsFromBytes nlongs.toNat rest3 with
                | none => none
                | some (longs, _) =>
                  match mapOpt (fun p => listGet? ids (extractLSB bits longs p))
                      (List.range 4096) with
                  | none => none
                  | some grid => some (count, grid)
    else
      match varIntDec rest with
      | none => none
      | some (nlongs, rest1) =>
        if nlongs < 0 then none
        else
          match longsFromBytes nlongs.toNat rest1 with
          | none => none
          | some (longs, _) =>
            some (count,
              (List.range 4096).map (fun p => (extractLSB bits longs p : Int)))
  | _ => none

/-- The block of section `s` at linear cell `p`, read through the stored
index and the palette (out-of-range reads defaulting, for the statement
of claims only). -/
def cellBlock (s : Section) (p : Nat) : Block :=
  s.palette.getD (s.blocks.getD p 0) Block.default

/-- The number of cells of `s` whose block identifier is not
`minecraft:air`. -/
def nonAirCount (s : Section) : Nat :=
  s.blocks.countP (fun bi => !((s.palette.getD bi Block.default).identifier == "minecraft:air"))

/-- C3's round-trip property exactly as the claim states it, for a
section and a total `id_of` function: the encoder succeeds, the leading
16-bit field is the non-air count, and the decoded grid of global ids is
`id_of` of the grid of `s`, cell by cell. -/
def networkRoundTrips (s : Section) (id_of : Block → Int) : Prop :=
  ∃ bs, s.network_data id_of = .ok bs ∧
    networkDecode bs =
      some (nonAirCount s, (List.range 4096).map (fun p => id_of (cellBlock s p)))

/-- `Chunk` from `parser/chunk.rs`. -/
structure Chunk where
  data_version : Int
  chunk_pos : Position
  status : String
  sections : List Section
deriving DecidableEq, Repr

/-- `Chunk::get` (`parser/chunk.rs` lines 25–31): out-of-range y yields
`None` (after a warning log); otherwise the section is indexed without a
bounds check and the position forwarded to it. -/
def Chunk.get (c : Chunk) (pos : Position) : POut (Option Block) :=
  match pos.section_index_in_chunk with
  | none => .ok none
  | some idx =>
    match listGet? c.sections idx with
    | none => .panic
    | some s =>
      match s.get pos with
      | .panic => .panic
      | .err e => .err e
      | .ok b => .ok (some b)

end McWorld

namespace McWorld

/-- Sign reinterpretation of a byte as an `i8` (`i8::from_be_bytes`). -/
def toI8 (b : Nat) : Int :=
  if b % 256 < 128 then (b % 256 : Nat) else (b % 256 : Nat) - 256

/-- The section record the older region machinery builds
(`parser.rs` lines 40–45; `parser/region.rs` constructs exactly this
shape): 4096 block-name strings plus the raw section tag. -/
structure RSection where
  blocks : List String
  section_data : NbtTag

/-- Old `Section::get` (`parser.rs` lines 47–56): out-of-range in-section
coordinates yield `None`; in-range ones index the name list. -/
def RSection.get (s : RSection) (x y z : Int) : POut (Option String) :=
  if ¬ (0 ≤ x ∧ x < 16) ∨ ¬ (0 ≤ y ∧ y < 16) ∨ ¬ (0 ≤ z ∧ z < 16) then .ok none
  else
    let block_pos := y * 16 * 16 + z * 16 + x
    match listGet? s.blocks block_pos.toNat with
    | none => .panic
    | some b => .ok (some b)

/-- The chunk record of the older machinery (`parser.rs` lines 59–66;
the five-argument `Chunk::new` call in `parser/region.rs` line 116
fills exactly these fields). -/
structure RChunk where
  data_version : Int
  position : Position
  status : String
  sections : List RSection
  chunk_data : NbtTag

/-- Old `Chunk::get` (`parser.rs` lines 68–77): range-check y, add 64,
index the section vector without a bounds check, and forward
`(x, y % 16, z)`. -/
def RChunk.get (c : RChunk) (x y z : Int) : POut (Option String) :=
  if ¬ (-64 ≤ y ∧ y < 320) then .ok none
  else
    let y2 := y + 64
    let sect := rustDiv y2 16
    match listGet? c.sections sect.toNat with
    | none => .panic
    | some s => s.get x (rustRem y2 16) z

/-- `l.length ≥ n`, decided by a structural walk that stops after `n`
steps, striding four elements per recursive call so that kernel
evaluation stays shallow (extensionally `n ≤ l.length`, see
`lenAtLeast_iff` below). -/
def lenAtLeast {α : Type} : List α → Nat → Bool
  | _, 0 => true
  | _ :: _ :: _ :: _ :: as, n + 4 => lenAtLeast as n
  | [], _ + 1 => false
  | _ :: as, n + 1 => lenAtLeast as n

/-- `ChunkLocation` (`parser/region.rs` lines 8–18). -/
structure ChunkLocation where
  offset : Nat
  sectors : Nat
deriving DecidableEq, Repr

/-- `ChunkTimestamp` (`parser/region.rs` lines 20–24). -/
structure ChunkTimestamp where
  modified_seconds : Nat
deriving DecidableEq, Repr

/-- `Region` (`parser/region.rs` lines 26–31). -/
structure RRegion where
  chunk_location_offsets : List ChunkLocation
  chunk_timestamps : List ChunkTimestamp
  chunks : List RChunk

namespace RRegion

/-- `Region::get_chunk` (`parser/region.rs` lines 52–59): linear scan of
the decoded chunks for one whose stored position matches `(x, z)`. -/
def get_chunk (r : RRegion) (x z : Int) : Option RChunk :=
  r.chunks.find? (fun c => c.position.x == x && c.position.z == z)

/-- `Region::get` (`parser/region.rs` lines 46–50): chunk selection by
**truncating** division `x/16`, `z/16`, then forwarding
`(x % 16, y, z % 16)` with Rust's signed remainder. -/
def get (r : RRegion) (x y z : Int) : POut (Option String) :=
  match r.get_chunk (rustDiv x 16) (rustDiv z 16) with
  | none => .ok none
  | some chunk => chunk.get (rustRem x 16) y (rustRem z 16)

/-- The inline bits-needed computation of `Region::parse_section`
(`parser/region.rs` lines 146–151): `checked_ilog2`, a **single**
conditional bump, then the minimum of 4 — no clamp above 8. -/
def rbitsNeeded (n : Nat) : Nat :=
  let palette_bits := checked_ilog2 n
  let palette_bits := if 2 ^ palette_bits < n then palette_bits + 1 else palette_bits
  if palette_bits < 4 then 4 else palette_bits

/-- One iteration of the extraction loop of `Region::parse_section`
(`parser/region.rs` lines 163–185): sub-index `p mod epl + 1` and shift
`(64 − padding) − bits·sub_index`, i.e. **MSB-first** within the long
below the top padding bits. -/
def parse_sectionCell (block_data : List Int) (palette : List NbtTag)
    (palette_bits pmask epl padding : Nat) (block_pos : Nat) : POut String :=
  let block_data_index := block_pos / epl
  let block_data_sub_index := block_pos % epl + 1
  let mask_shift := (64 - padding) - palette_bits * block_data_sub_index
  match listGet? block_data block_data_index with
  | none => .panic
  | some l =>
    let palette_index := (toU64 l &&& (pmask <<< mask_shift)) >>> mask_shift
    match listGet? palette palette_index with
    | none => .panic
    | some entry =>
      match entry.get_string "Name" with
      | .ok block_name => .ok block_name
      | .error _ => .panic

/-- `Region::parse_section` (`parser/region.rs` lines 137–188). -/
def parse_section (tag : NbtTag) : POut RSection :=
  match tag.get "block_states" with
  | .error e => .err (.nbtParseError e)
  | .ok block_states =>
  match block_states.get_list "palette" with
  | .error e => .err (.nbtParseError e)
  | .ok palette =>
  if palette.length = 1 then
    match listGet? palette 0 with
    | none => .panic
    | some p0 =>
      match p0.get_string "Name" with
      | .error e => .err (.nbtParseError e)
      | .ok name => .ok ⟨List.replicate 4096 name, tag⟩
  else
    match block_states.get_long_array "data" with
    | .error e => .err (.nbtParseError e)
    | .ok block_data =>
      let palette_bits := rbitsNeeded palette.length
      let pmask := Section.palette_maskAux palette_bits
      let palette_entries_per_long := 64 / palette_bits
      let padding := 64 % palette_bits
      match mapPOut
          (parse_sectionCell block_data palette palette_bits pmask
            palette_entries_per_long padding)
          (List.range 4096) with
      | .panic => .panic
      | .err e => .err e
      | .ok blocks => .ok ⟨blocks, tag⟩

/-- `Region::parse_sections` (`parser/region.rs` lines 129–135). -/
def parse_sections (data : List NbtTag) : POut (List RSection) :=
  mapPOut parse_section data

/-- `Region::next` on the byte iterator (`parser/region.rs` lines
61–63). -/
def rnext : List Nat → POut (Nat × List Nat)
  | [] => .err .endOfData
  | b :: rest => .ok (b, rest)

/-- `Region::next_byte` (`parser/region.rs` lines 65–67). -/
def next_byte (it : List Nat) : POut (Int × List Nat) :=
  match rnext it with
  | .panic => .panic
  | .err e => .err e
  | .ok (b, it) => .ok (toI8 b, it)

/-- `Region::next_int` (`parser/region.rs` lines 73–77). -/
def next_int (it : List Nat) : POut (Int × List Nat) :=
  match rnext it with
  | .panic => .panic | .err e => .err e
  | .ok (b0, it) =>
  match rnext it with
  | .panic => .panic | .err e => .err e
  | .ok (b1, it) =>
  match rnext it with
  | .panic => .panic | .err e => .err e
  | .ok (b2, it) =>
  match rnext it with
  | .panic => .panic | .err e => .err e
  | .ok (b3, it) => .ok (toI32 (((b0 * 256 + b1) * 256 + b2) * 256 + b3), it)

/-- `Region::next_chunk_location` (`parser/region.rs` lines 86–91): a
24-bit big-endian sector offset and an 8-bit sector count. -/
def next_chunk_location (it : List Nat) : POut (ChunkLocation × List Nat) :=
  match rnext it with
  | .panic => .panic | .err e => .err e
  | .ok (b0, it) =>
  match rnext it with
  | .panic => .panic | .err e => .err e
  | .ok (b1, it) =>
  match rnext it with
  | .panic => .panic | .err e => .err e
  | .ok (b2, it) =>
  match rnext it with
  | .panic => .panic | .err e => .err e
  | .ok (b3, it) => .ok (⟨(b0 * 256 + b1) * 256 + b2, b3⟩, it)

/-- `Region::next_chunk_timestamp` (`parser/region.rs` lines 93–97). -/
def next_chunk_timestamp (it : List Nat) : POut (ChunkTimestamp × List Nat) :=
  match rnext it with
  | .panic => .panic | .err e => .err e
  | .ok (b0, it) =>
  match rnext it with
  | .panic => .panic | .err e => .err e
  | .ok (b1, it) =>
  match rnext it with
  | .panic => .panic | .err e => .err e
  | .ok (b2, it) =>
  match rnext it with
  | .panic => .panic | .err e => .err e
  | .ok (b3, it) => .ok (⟨((b0 * 256 + b1) * 256 + b2) * 256 + b3⟩, it)

/-- `Region::next_chunk` (`parser/region.rs` lines 98–127).  The gzip
and zlib entry points of the external tag decoder are parameters `gz`
and `zl` (they return a `Result`), the plain binary entry point `bin`
(it returns a tag directly).  A compression discriminator other than
1, 2, 3 hits `unimplemented!()` — a panic — and a decoder `Err` hits
`.unwrap()` — also a panic. -/
def next_chunk (gz zl : List Nat → Except NbtParseError NbtTag)
    (bin : List Nat → NbtTag) (it : List Nat) : POut RChunk :=
  match next_int it with
  | .panic => .panic | .err e => .err e
  | .ok (length, it) =>
  match next_byte it with
  | .panic => .panic | .err e => .err e
  | .ok (compression_type, it) =>
  let wanted := ((length - 1) % (18446744073709551616 : Int)).toNat
  let raw_data := it.take wanted
  if raw_data.length < wanted then .err .endOfData
  else
    match
      (if compression_type = 1 then some (gz raw_data)
       else if compression_type = 2 then some (zl raw_data)
       else if compression_type = 3 then some (.ok (bin raw_data))
       else none) with
    | none => .panic
    | some (.error _) => .panic
    | some (.ok parser_result) =>
      match parser_result.get_list "sections" with
      | .error e => .err (.nbtParseError e)
      | .ok section_tags =>
        match parse_sections section_tags with
        | .panic => .panic | .err e => .err e
        | .ok sections =>
          match parser_result.get_int "DataVersion" with
          | .error e => .err (.nbtParseError e)
          | .ok data_version =>
          match parser_result.get_int "xPos" with
          | .error e => .err (.nbtParseError e)
          | .ok xp =>
          match parser_result.get_int "yPos" with
          | .error e => .err (.nbtParseError e)
          | .ok yp =>
          match parser_result.get_int "zPos" with
          | .error e => .err (.nbtParseError e)
          | .ok zp =>
          match parser_result.get_string "Status" with
          | .error e => .err (.nbtParseError e)
          | .ok status =>
            .ok ⟨data_version, ⟨xp, yp, zp⟩, status, sections, parser_result⟩

/-- The header-reading loops of `Region::parse_region`: `k` consecutive
location records. -/
def locationsGo : Nat → List Nat → POut (List ChunkLocation × List Nat)
  | 0, it => .ok ([], it)
  | k + 1, it =>
    match next_chunk_location it with
    | .panic => .panic | .err e => .err e
    | .ok (loc, it) =>
      match locationsGo k it with
      | .panic => .panic | .err e => .err e
      | .ok (locs, it) => .ok (loc :: locs, it)

/-- The header-reading loops of `Region::parse_region`: `k` consecutive
timestamp records. -/
def timestampsGo : Nat → List Nat → POut (List ChunkTimestamp × List Nat)
  | 0, it => .ok ([], it)
  | k + 1, it =>
    match next_chunk_timestamp it with
    | .panic => .panic | .err e => .err e
    | .ok (ts, it) =>
      match timestampsGo k it with
      | .panic => .panic | .err e => .err e
      | .ok (tss, it) => .ok (ts :: tss, it)

/-- The chunk-body loop of `Region::parse_region` (lines 204–209): for
every location with non-zero offset and sector count, slice
`region_data[offset·4096 .. offset·4096 + sectors·4096]` (a slice past
the end of the buffer panics) and parse a chunk from it. -/
def chunksGo (gz zl : List Nat → Except NbtParseError NbtTag)
    (bin : List Nat → NbtTag) (region_data : List Nat) :
    List ChunkLocation → POut (List RChunk)
  | [] => .ok []
  | loc :: rest =>
    if loc.offset ≠ 0 ∧ loc.sectors ≠ 0 then
      if lenAtLeast region_data (loc.offset * 4096 + loc.sectors * 4096) then
        match next_chunk gz zl bin
            ((region_data.drop (loc.offset * 4096)).take (loc.sectors * 4096)) with
        | .panic => .panic | .err e => .err e
        | .ok c =>
          match chunksGo gz zl bin region_data rest with
          | .panic => .panic | .err e => .err e
          | .ok cs => .ok (c :: cs)
      else .panic
    else chunksGo gz zl bin region_data rest

/-- `Region::parse_region` (`parser/region.rs` lines 190–216). -/
def parse_region (gz zl : List Nat → Except NbtParseError NbtTag)
    (bin : List Nat → NbtTag) (region_data : List Nat) : POut RRegion :=
  if ¬ lenAtLeast region_data 0x2000 then .err .endOfData
  else
    let data := region_data.take 8192
    match locationsGo 1024 data with
    | .panic => .panic | .err e => .err e
    | .ok (chunk_locations, data) =>
      match timestampsGo 1024 data with
      | .panic => .panic | .err e => .err e
      | .ok (chunk_timestamps, _) =>
        match chunksGo gz zl bin region_data chunk_locations with
        | .panic => .panic | .err e => .err e
        | .ok chunks => .ok ⟨chunk_locations, chunk_timestamps, chunks⟩

/-- Modelled from the spec: the `Position`-taking `Region::get` that
`loader.rs` calls (`region.get(pos).cloned()`).  That signature is
absent from this snapshot of `region.rs` (whose `get` takes three
integers), so this follows the spec: §4.6 "compute the chunk-in-region;
linearly scan the decoded chunks for one whose (x,z) equals the target;
if none, return absent; otherwise forward the query", §4.5 forwarding
through the section index and `block_in_section`.  The stored block
names are bridged to `Block` values by `Block.fromName`. -/
def getPos (r : RRegion) (pos : Position) : POut (Option Block) :=
  match r.get_chunk (pos.chunk_in_region).x (pos.chunk_in_region).z with
  | none => .ok none
  | some chunk =>
    match pos.section_index_in_chunk with
    | none => .ok none
    | some idx =>
      match listGet? chunk.sections idx with
      | none => .panic
      | some s =>
        let q := pos.block_in_section
        match s.get q.x q.y q.z with
        | .panic => .panic
        | .err e => .err e
        | .ok b => .ok (b.map Block.fromName)

end RRegion

/-- `World` from `loader.rs`, reduced to the state the claims are about:
the lazily populated region cache keyed by region-in-world position.
(The level metadata and directory listing play no part in any claim.) -/
structure World where
  loaded_regions : List (Position × RRegion)

namespace World

/-- `BTreeMap::get`: look a region up by its exact key. -/
def lookupRegion (w : World) (k : Position) : Option RRegion :=
  (w.loaded_regions.find? (fun e => e.1 == k)).map (fun e => e.2)

/-- `BTreeMap::insert`: replace the entry at the key if present,
otherwise add one. -/
def upsert (w : World) (k : Position) (r : RRegion) : World :=
  if (w.loaded_regions.find? (fun e => e.1 == k)).isSome then
    ⟨w.loaded_regions.map (fun e => if e.1 == k then (k, r) else e)⟩
  else ⟨w.loaded_regions ++ [(k, r)]⟩

/-- `World::load_region` (`loader.rs` lines 59–69).  The file system is
the oracle `fs` from region position to file bytes (`none` = the read
failed).  A failed read or a parse error is logged and returns `None`
without touching the cache; success inserts the region. -/
def load_region (fs : Position → Option (List Nat))
    (gz zl : List Nat → Except NbtParseError NbtTag) (bin : List Nat → NbtTag)
    (w : World) (pos : Position) : POut (Option World) :=
  match fs pos with
  | none => .ok none
  | some region_data =>
    match RRegion.parse_region gz zl bin region_data with
    | .panic => .panic
    | .err _ => .ok none
    | .ok region => .ok (some (w.upsert pos region))

/-- `World::get_block` (`loader.rs` lines 38–47).  The returned `Nat`
counts how many file-system reads the call performed (0 when the cache
answered). -/
def get_block (fs : Position → Option (List Nat))
    (gz zl : List Nat → Except NbtParseError NbtTag) (bin : List Nat → NbtTag)
    (w : World) (pos : Position) : POut (Option Block) × World × Nat :=
  match w.lookupRegion pos.region_in_world with
  | some region => (region.getPos pos, w, 0)
  | none =>
    match load_region fs gz zl bin w pos.region_in_world with
    | .panic => (.panic, w, 1)
    | .err e => (.err e, w, 1)
    | .ok none => (.ok none, w, 1)
    | .ok (some w') =>
      match w'.lookupRegion pos.region_in_world with
      | none => (.ok none, w', 1)
      | some region => (region.getPos pos, w', 1)

end World

/-- The palette-growing step shared by the dedup loops: push the block
at the end unless it is already present (spec-side abbreviation of the
step inlined in `Section.pass1Go` and `Section.dedupStep`). -/
def dedupAdd (pal : List Block) (b : Block) : List Block :=
  if pal.contains b then pal else pal ++ [b]

/-- The deduplicated palette of the blocks actually used by a section,
in first-use order: the palette the first loop of
`Section::network_data` builds. -/
def usedPalette (s : Section) : List Block :=
  match Section.pass1Go s.palette s.blocks [] 0 with
  | .ok (pal, _) => pal
  | _ => []

/-- The multiset of blocks a section's cells hold, in cell order. -/
def usedBlocks (s : Section) : List Block :=
  s.blocks.map (fun bi => s.palette.getD bi Block.default)

/-- The pure long-packing fold both packing loops of
`Section::network_data` reduce to: OR each value in LSB-first at shift
`index · bits`. -/
def packFold (bits : Nat) : List Nat → Nat → Nat → Nat
  | [], _, long => long
  | v :: vs, i, long => packFold bits vs (i + 1) (long ||| (v <<< (i * bits)))

/-- The value of a list of base-`B` digits, least significant first. -/
def valsToNat (B : Nat) : List Nat → Nat
  | [] => 0
  | v :: vs => v + B * valsToNat B vs

/-- The palette position the indirect packing loop resolves a stored
block index to: the first index in the new palette holding the block the
old palette stores at `bi`. -/
def pidxOf (oldPal newPal : List Block) (bi : Nat) : Nat :=
  newPal.findIdx (fun e => e = oldPal.getD bi Block.default)

/-- The longs the direct branch of `Section::network_data` emits when no
packed field overflows its 15 bits: each cell's global id (as the `u64`
the cast produces) packed four to a long, LSB-first. -/
def directLongs (s : Section) (id_of : Block → Int) : List Nat :=
  (chunksOf 4 (s.blocks.map (fun bi =>
    toU64 (id_of (s.palette.getD bi Block.default))))).map
    (fun c => packFold 15 c 0 0)

/-- A family of pairwise distinct blocks, distinguished by the length of
their property list (concrete input material for C3). -/
def blockN (i : Nat) : Block := ⟨"minecraft:b", List.replicate i ("p", "v")⟩

/-- A palette of 257 pairwise distinct blocks (concrete input). -/
def palette257 : List Block := (List.range 257).map blockN

/-- A section using 257 distinct blocks — enough to force the direct
(bits = 15) network encoding (concrete input for the C3
counterexample). -/
def s257 : Section :=
  ⟨List.range 257 ++ List.replicate 3839 0, palette257⟩

/-- A total id function whose value, 40000, does not fit in the 15 bits
of a direct-mode packed entry (concrete input for the C3
counterexample). -/
def f40000 : Block → Int := fun _ => 40000

/-- The section the C4/C9 concrete tag parses to. -/
def sC4 : Section := ⟨List.replicate 4096 0, [Block.fromName "minecraft:water"]⟩

/-- A well-formed all-air section (concrete input). -/
def goodSection : Section := ⟨List.replicate 4096 0, [Block.default]⟩

/-- A chunk with 24 well-formed sections (concrete input for the C10
witness). -/
def chunkGood : Chunk := ⟨0, ⟨0, 0, 0⟩, "minecraft:full", List.replicate 24 goodSection⟩

/-- A chunk with 24 malformed (empty) sections (concrete input for the
C10 counterexample). -/
def chunkBad : Chunk := ⟨0, ⟨0, 0, 0⟩, "empty", List.replicate 24 ⟨[], []⟩⟩

/-- A decoded region with no chunks (concrete input for the C8
witness). -/
def emptyRegion : RRegion := ⟨[], [], []⟩

/-- A tiny section: one water cell, the rest air (spec §8 scenario 2;
concrete input for the C3 witness). -/
def s2 : Section :=
  ⟨1 :: List.replicate 4095 0, [Block.default, ⟨"minecraft:water", []⟩]⟩

/-- An id function for the C3 witness: air is 0, everything else 9. -/
def fAir0 : Block → Int := fun b => if b.identifier = "minecraft:air" then 0 else 9


/-- A palette entry named `A` (concrete input). -/
def tagA : NbtTag := .compound "" [.string "Name" "A"]

/-- A palette entry named `B` (concrete input). -/
def tagB : NbtTag := .compound "" [.string "Name" "B"]

/-- The data long-array for the C1 failing input: first long 1, and
256 longs in all (enough for 4096 four-bit entries). -/
def dataC1 : List Int := 1 :: List.replicate 255 0

/-- A palette entry carrying a `Properties` compound (concrete input for
C4): water with `level = 0`, exactly the block the repository's own test
expects back with its property map intact. -/
def waterEntry : NbtTag :=
  .compound "" [.string "Name" "minecraft:water",
    .compound "Properties" [.string "level" "0"]]

/-- Concrete single-entry-palette section tag for C4. -/
def tagC4 : NbtTag :=
  .compound "" [.compound "block_states" [.list "palette" [waterEntry]]]

/-- A well-formed old-style section full of stone (concrete input). -/
def stoneSection : RSection :=
  ⟨List.replicate 4096 "minecraft:stone", .compound "" []⟩

/-- A decoded chunk stored at chunk coordinates (−1, 0) with 24 stone
sections (concrete input for C5). -/
def chunkNeg : RChunk :=
  ⟨0, ⟨-1, 0, 0⟩, "minecraft:full", List.replicate 24 stoneSection, .compound "" []⟩

/-- A region holding exactly that chunk (concrete input for C5). -/
def region5 : RRegion := ⟨[], [], [chunkNeg]⟩

/-- Concrete section tag for C6: a two-entry palette with a data long
whose first extracted index is 2, one past the palette end. -/
def tagC6 : NbtTag :=
  .compound "" [.compound "block_states"
    [.list "palette" [tagA, tagB], .longArray "data" [2]]]

/-- Concrete region buffer for C7: a valid 8 KiB header whose only
present slot points at sector 1, which holds a chunk frame declaring
length 2 and compression discriminator 4. -/
def regionBytesC7 : List Nat :=
  [0, 0, 1, 1] ++ List.replicate 4092 0 ++ ([0, 0, 0, 2, 4, 99] ++ List.replicate 4090 0)

end McWorld

namespace McWorld

/-- C2: at the world position `(-16, 0, 0)` — a negative multiple of 16,
one of the inputs the spec's test list explicitly demands — the code's
`chunk_in_region` yields chunk x = −2 (not −1, the floor), so the
reassembly `chunk_in_region · 16 + block_in_section` produces −32
instead of −16.  This evaluates the code at the failing input of the
C2 code bug. -/
theorem chunk_in_region_reassembly_fails_at_neg16 :
    Position.chunk_in_region ⟨-16, 0, 0⟩ = ⟨-2, 0, 0⟩ ∧
    Position.block_in_section ⟨-16, 0, 0⟩ = ⟨0, 0, 0⟩ ∧
    ¬ reassembles ⟨-16, 0, 0⟩ ∧
    reassembles ⟨-17, 0, 0⟩ ∧ reassembles ⟨-1, 0, 0⟩ ∧ reassembles ⟨15, 0, 0⟩ := by
  refine ⟨by decide, by decide, by decide, by decide, by decide, by decide⟩

end McWorld


namespace McWorld







/-- C1: the extraction loop of the disk-region decoder
`Region::parse_section` reads palette indices MSB-first, not LSB-first
as the claim states.  With a two-entry palette `[A, B]` the decoder's
parameters are bits = 4, mask = 15, entries_per_long = 16, padding = 0
(first two conjuncts); on a data array whose first long is 1, the
decoder's cell 0 gets "A" and cell 15 gets "B", while the claim's
LSB-first formula `(data[0] >> (4·(p mod 16))) & 15` extracts index 1
("B") at cell 0 and 0 ("A") at cell 15. -/
theorem region_decoder_extracts_msb_first_not_lsb :
    RRegion.rbitsNeeded 2 = 4 ∧ Section.palette_maskAux 4 = 15 ∧
    RRegion.parse_sectionCell dataC1 [tagA, tagB] 4 15 16 0 0 = .ok "A" ∧
    RRegion.parse_sectionCell dataC1 [tagA, tagB] 4 15 16 0 15 = .ok "B" ∧
    extractLSB 4 [1] 0 = 1 ∧ extractLSB 4 [1] 15 = 0 := by
  refine ⟨by decide, by decide, by decide, by decide, by decide, by decide⟩





/-- C4: `Section::parse_section` builds every cell's block from the
palette entry's `Name` string alone, so the stored block for the water
entry has an empty property map — while `Block::new` applied to the same
entry (what the claim and the repository's own `parse_world` test
expect) carries `level = 0`. -/
theorem parse_section_drops_palette_properties :
    Section.parse_section tagC4 =
      .ok ⟨List.replicate 4096 0, [Block.fromName "minecraft:water"]⟩ ∧
    Block.new waterEntry = .ok ⟨"minecraft:water", [("level", "0")]⟩ ∧
    Block.fromName "minecraft:water" ≠ ⟨"minecraft:water", [("level", "0")]⟩ := by
  refine ⟨by rfl, by rfl, by decide⟩







/-- C5: `Region::get` selects the chunk with **truncating** division
`x/16` (here `(-1)/16 = 0`), not `chunk_in_region` (which yields −1), so
the lookup at world (−1, 0, 0) returns absent even though the region
holds a chunk stored at exactly `chunk_in_region((-1,0,0)) = (−1, 0)`
whose cell at the corresponding in-chunk coordinates (15, 0, 0) is
stone. -/
theorem region_get_misses_negative_chunk :
    RRegion.get region5 (-1) 0 0 = .ok none ∧
    Position.chunk_in_region ⟨-1, 0, 0⟩ = ⟨-1, 0, 0⟩ ∧
    (region5.get_chunk (-1) 0).map (fun c => c.position) = some ⟨-1, 0, 0⟩ ∧
    Position.block_in_section ⟨-1, 0, 0⟩ = ⟨15, 0, 0⟩ ∧
    RChunk.get chunkNeg 15 0 0 = .ok (some "minecraft:stone") := by
  refine ⟨by rfl, by decide, by rfl, by decide, by rfl⟩



/-- C6: on a section tag carrying an out-of-range packed palette index,
`Section::parse_section` panics (the `&palette[palette_index]` indexing,
right after the "Will panic after this" debug logging) instead of
returning an `Err` as the claim requires. -/
theorem parse_section_panics_on_out_of_range_palette_index :
    Section.parse_section tagC6 = .panic ∧
    ∀ e : McaParseError, Section.parse_section tagC6 ≠ .err e := by
  refine ⟨by rfl, fun e h => ?_⟩
  have h2 : Section.parse_section tagC6 = .panic := by rfl
  rw [h2] at h
  exact POut.noConfusion h



/-- C7: a present chunk slot whose compression discriminator is 4 drives
`Region::next_chunk` into `unimplemented!()` — a panic — whatever the
external tag decoder does, instead of the error value the claim
requires. -/
theorem parse_region_panics_on_unsupported_compression
    (gz zl : List Nat → Except NbtParseError NbtTag) (bin : List Nat → NbtTag) :
    RRegion.parse_region gz zl bin regionBytesC7 = .panic := by
  rfl

end McWorld

namespace McWorld

theorem listGet?_eq_getElem? {α : Type} (l : List α) (n : Nat) :
    listGet? l n = l[n]? := by
  induction l generalizing n with
  | nil => simp [listGet?]
  | cons a as ih =>
    cases n with
    | zero => simp [listGet?]
    | succ n => simpa [listGet?] using ih n

theorem listGet?_eq_some_getD {α : Type} {l : List α} {n : Nat} (d : α)
    (h : n < l.length) : listGet? l n = some (l.getD n d) := by
  rw [listGet?_eq_getElem?, List.getElem?_eq_getElem h, List.getD_eq_getElem l d h]

theorem listGet?_map {α β : Type} (f : α → β) (l : List α) (n : Nat) :
    listGet? (l.map f) n = (listGet? l n).map f := by
  rw [listGet?_eq_getElem?, listGet?_eq_getElem?, List.getElem?_map]

theorem mapPOutGo_eq {α β : Type} (f : α → POut β) (l : List α) (acc : List β) :
    mapPOutGo f l acc =
      match mapPOutN f l with
      | .ok bs => .ok (acc.reverse ++ bs)
      | .err e => .err e
      | .panic => .panic := by
  induction l generalizing acc with
  | nil => simp [mapPOutGo, mapPOutN]
  | cons a as ih =>
    cases hfa : f a with
    | ok b =>
      simp only [mapPOutGo, mapPOutN, hfa]
      rw [ih]
      cases mapPOutN f as <;> simp
    | err e => simp [mapPOutGo, mapPOutN, hfa]
    | panic => simp [mapPOutGo, mapPOutN, hfa]

theorem mapPOut_eq_naive {α β : Type} (f : α → POut β) (l : List α) :
    mapPOut f l = mapPOutN f l := by
  rw [mapPOut, mapPOutGo_eq]
  cases mapPOutN f l <;> simp

theorem mapPOutN_ok_map {α β : Type} (f : α → POut β) (g : α → β) (l : List α)
    (h : ∀ a ∈ l, f a = .ok (g a)) : mapPOutN f l = .ok (l.map g) := by
  induction l with
  | nil => rfl
  | cons a as ih =>
    have ha := h a (by simp)
    simp only [mapPOutN, ha, ih fun x hx => h x (by simp [hx]), List.map_cons]

theorem mapPOutN_cons_ok {α β : Type} {f : α → POut β} {a : α} {as : List α}
    {bs : List β} (h : mapPOutN f (a :: as) = .ok bs) :
    ∃ b bs', f a = .ok b ∧ mapPOutN f as = .ok bs' ∧ bs = b :: bs' := by
  revert h
  simp only [mapPOutN]
  cases hfa : f a with
  | ok b =>
    cases hrest : mapPOutN f as with
    | ok bs' => intro h; exact ⟨b, bs', rfl, rfl, by cases h; rfl⟩
    | err e => intro h; cases h
    | panic => intro h; cases h
  | err e => intro h; cases h
  | panic => intro h; cases h

theorem mapOptGo_eq {α β : Type} (f : α → Option β) (l : List α) (acc : List β) :
    mapOptGo f l acc =
      match mapOptN f l with
      | some bs => some (acc.reverse ++ bs)
      | none => none := by
  induction l generalizing acc with
  | nil => simp [mapOptGo, mapOptN]
  | cons a as ih =>
    cases hfa : f a with
    | some b =>
      simp only [mapOptGo, mapOptN, hfa]
      rw [ih]
      cases mapOptN f as <;> simp
    | none => simp [mapOptGo, mapOptN, hfa]

theorem mapOpt_eq_naive {α β : Type} (f : α → Option β) (l : List α) :
    mapOpt f l = mapOptN f l := by
  rw [mapOpt, mapOptGo_eq]
  cases mapOptN f l <;> simp

theorem mapOptN_some_map {α β : Type} (f : α → Option β) (g : α → β) (l : List α)
    (h : ∀ a ∈ l, f a = some (g a)) : mapOptN f l = some (l.map g) := by
  induction l with
  | nil => rfl
  | cons a as ih =>
    have ha := h a (by simp)
    simp only [mapOptN, ha, ih fun x hx => h x (by simp [hx]), List.map_cons]

theorem map_range_getD {α : Type} (d : α) (l : List α) :
    (List.range l.length).map (fun p => l.getD p d) = l := by
  induction l with
  | nil => rfl
  | cons a as ih =>
    rw [List.length_cons, List.range_succ_eq_map, List.map_cons, List.map_map]
    refine congrArg (a :: ·) ?_
    refine (List.map_congr_left fun p _ => ?_).trans ih
    simp [List.getD]

end McWorld

namespace McWorld

theorem lenAtLeast_iff {α : Type} : ∀ (l : List α) (n : Nat),
    lenAtLeast l n = true ↔ n ≤ l.length := by
  intro l n
  induction l, n using lenAtLeast.induct <;> simp_all [lenAtLeast]

theorem chunksOfFuel_congr {α : Type} (n : Nat) (hn : 0 < n) :
    ∀ (fuel₁ : Nat) (fuel₂ : Nat) (l : List α), l.length ≤ fuel₁ → l.length ≤ fuel₂ →
    chunksOfFuel fuel₁ n l = chunksOfFuel fuel₂ n l := by
  intro f1
  induction f1 with
  | zero =>
    intro f2 l h1 _
    have : l = [] := List.eq_nil_of_length_eq_zero (by omega)
    subst this
    cases f2 <;> rfl
  | succ f1 ih =>
    intro f2 l h1 h2
    cases l with
    | nil => cases f2 <;> rfl
    | cons a as =>
      cases f2 with
      | zero => simp at h2
      | succ f2 =>
        show (a :: as).take n :: chunksOfFuel f1 n ((a :: as).drop n) =
          (a :: as).take n :: chunksOfFuel f2 n ((a :: as).drop n)
        have hd : ((a :: as).drop n).length ≤ f1 := by
          rw [List.length_drop]; simp at h1 ⊢; omega
        have hd2 : ((a :: as).drop n).length ≤ f2 := by
          rw [List.length_drop]; simp at h2 ⊢; omega
        rw [ih f2 _ hd hd2]

theorem chunksOf_nil {α : Type} (n : Nat) : chunksOf n ([] : List α) = [] := rfl

theorem chunksOf_cons {α : Type} (n : Nat) (hn : 0 < n) (a : α) (l : List α) :
    chunksOf n (a :: l) = (a :: l).take n :: chunksOf n ((a :: l).drop n) := by
  show chunksOfFuel (a :: l).length n (a :: l) = _
  rw [List.length_cons]
  show (a :: l).take n :: chunksOfFuel l.length n ((a :: l).drop n) = _
  rw [chunksOf, chunksOfFuel_congr n hn l.length ((a :: l).drop n).length _
    (by rw [List.length_drop]; simp; omega) (le_refl _)]

theorem chunksOf_map {α β : Type} (f : α → β) (n : Nat) (hn : 0 < n) (l : List α) :
    chunksOf n (l.map f) = (chunksOf n l).map (List.map f) := by
  suffices H : ∀ (N : Nat) (l : List α), l.length ≤ N →
      chunksOf n (l.map f) = (chunksOf n l).map (List.map f) from
    H l.length l (le_refl _)
  intro N
  induction N with
  | zero =>
    intro l hl
    have h0 : l = [] := List.eq_nil_of_length_eq_zero (Nat.le_zero.mp hl)
    subst h0
    rfl
  | succ N ih =>
    intro l hl
    cases l with
    | nil => rfl
    | cons a as =>
      have hmc : (a :: as).map f = f a :: as.map f := rfl
      rw [chunksOf_cons n hn a as, hmc, chunksOf_cons n hn (f a) (as.map f),
        List.map_cons]
      refine congrArg₂ (· :: ·) ?_ ?_
      · rw [← hmc, ← List.map_take]
      · rw [← hmc, ← List.map_drop]
        refine ih _ ?_
        rw [List.length_drop]
        simp at hl ⊢
        omega

theorem chunksOf_mem_le {α : Type} (n : Nat) (hn : 0 < n) (l : List α) (c : List α)
    (hc : c ∈ chunksOf n l) : c.length ≤ n ∧ ∀ x ∈ c, x ∈ l := by
  suffices H : ∀ (N : Nat) (l : List α), l.length ≤ N → ∀ c ∈ chunksOf n l,
      c.length ≤ n ∧ ∀ x ∈ c, x ∈ l from H l.length l (le_refl _) c hc
  intro N
  induction N with
  | zero =>
    intro l hl c hc
    have h0 : l = [] := List.eq_nil_of_length_eq_zero (Nat.le_zero.mp hl)
    subst h0
    simp [chunksOf_nil] at hc
  | succ N ih =>
    intro l hl c hc
    cases l with
    | nil => simp [chunksOf_nil] at hc
    | cons a as =>
      rw [chunksOf_cons n hn] at hc
      rcases List.mem_cons.mp hc with h | h
      · subst h
        exact ⟨List.length_take_le n _, fun x hx => List.mem_of_mem_take hx⟩
      · have hlen : ((a :: as).drop n).length ≤ N := by
          rw [List.length_drop]; simp at hl ⊢; omega
        have := ih _ hlen c h
        exact ⟨this.1, fun x hx => List.mem_of_mem_drop (this.2 x hx)⟩

theorem chunksOf_length_le {α : Type} (n : Nat) (hn : 0 < n) (l : List α) :
    (chunksOf n l).length ≤ l.length := by
  suffices H : ∀ (N : Nat) (l : List α), l.length ≤ N →
      (chunksOf n l).length ≤ l.length from H l.length l (le_refl _)
  intro N
  induction N with
  | zero =>
    intro l hl
    have h0 : l = [] := List.eq_nil_of_length_eq_zero (Nat.le_zero.mp hl)
    subst h0
    simp [chunksOf_nil]
  | succ N ih =>
    intro l hl
    cases l with
    | nil => simp [chunksOf_nil]
    | cons a as =>
      rw [chunksOf_cons n hn]
      have hlen : ((a :: as).drop n).length ≤ N := by
        rw [List.length_drop]; simp at hl ⊢; omega
      have := ih _ hlen
      simp only [List.length_cons, List.length_drop] at this ⊢
      omega

end McWorld

namespace McWorld

theorem lor_shiftLeft_eq_add {a b k : Nat} (h : a < 2 ^ k) :
    a ||| (b <<< k) = a + b * 2 ^ k := by
  refine Nat.eq_of_testBit_eq fun i => ?_
  rw [Nat.testBit_lor, Nat.testBit_shiftLeft]
  by_cases hik : k ≤ i
  · have ha : a.testBit i = false :=
      Nat.testBit_eq_false_of_lt (lt_of_lt_of_le h (Nat.pow_le_pow_right (by norm_num) hik))
    have hdiv : (a + b * 2 ^ k) / 2 ^ i = b / 2 ^ (i - k) := by
      have h1 : (2 : Nat) ^ i = 2 ^ k * 2 ^ (i - k) := by
        rw [← pow_add]
        congr 1
        omega
      rw [h1, ← Nat.div_div_eq_div_mul,
        Nat.add_mul_div_right _ _ (Nat.two_pow_pos k), Nat.div_eq_of_lt h, Nat.zero_add]
    conv_rhs => rw [Nat.testBit_to_div_mod]
    rw [hdiv]
    have ha' : decide (a / 2 ^ i % 2 = 1) = false := by
      rw [← Nat.testBit_to_div_mod]
      exact ha
    rw [Nat.testBit_to_div_mod, ha']
    simp only [Bool.false_or, ge_iff_le, hik, decide_eq_true_eq, Bool.true_and,
      Nat.testBit_to_div_mod]
    simp [hik]
  · have hb : (decide (i ≥ k) && b.testBit (i - k)) = false := by
      simp [hik]
    rw [hb, Bool.or_false]
    rw [Nat.testBit_to_div_mod, Nat.testBit_to_div_mod]
    have hpow : 2 ^ (k - i - 1) * 2 * 2 ^ i = 2 ^ k := by
      calc 2 ^ (k - i - 1) * 2 * 2 ^ i = 2 ^ (k - i - 1 + 1) * 2 ^ i := by rw [pow_succ]
        _ = 2 ^ (k - i - 1 + 1 + i) := by rw [← pow_add]
        _ = 2 ^ k := by congr 1; omega
    have h1 : b * 2 ^ k = b * 2 ^ (k - i - 1) * 2 * 2 ^ i := by
      rw [← hpow]
      ring
    rw [h1, show b * 2 ^ (k - i - 1) * 2 * 2 ^ i = (b * 2 ^ (k - i - 1)) * 2 * 2 ^ i by ring]
    rw [show a + b * 2 ^ (k - i - 1) * 2 * 2 ^ i = a + (b * 2 ^ (k - i - 1) * 2) * 2 ^ i by ring,
      Nat.add_mul_div_right _ _ (Nat.two_pow_pos i),
      show a / 2 ^ i + b * 2 ^ (k - i - 1) * 2 = a / 2 ^ i + (b * 2 ^ (k - i - 1)) * 2 by ring,
      Nat.add_mul_mod_self_right]

theorem valsToNat_lt (B : Nat) (hB : 0 < B) (vs : List Nat)
    (h : ∀ v ∈ vs, v < B) : valsToNat B vs < B ^ vs.length := by
  induction vs with
  | nil => simp only [valsToNat, List.length_nil, pow_zero]; omega
  | cons v vs ih =>
    have hv := h v (by simp)
    have hrest := ih fun x hx => h x (by simp [hx])
    have hmul : B * valsToNat B vs + B ≤ B * B ^ vs.length := by
      have h2 := Nat.mul_le_mul_left B (Nat.succ_le_of_lt hrest)
      simpa [Nat.mul_succ] using h2
    simp only [valsToNat, List.length_cons, pow_succ]
    calc v + B * valsToNat B vs < B * valsToNat B vs + B := by omega
      _ ≤ B * B ^ vs.length := hmul
      _ = B ^ vs.length * B := Nat.mul_comm _ _

theorem valsToNat_digit (B : Nat) (hB : 0 < B) (vs : List Nat) (j : Nat)
    (h : ∀ v ∈ vs, v < B) (hj : j < vs.length) :
    valsToNat B vs / B ^ j % B = vs.getD j 0 := by
  induction vs generalizing j with
  | nil => simp at hj
  | cons v vs ih =>
    cases j with
    | zero =>
      simp only [valsToNat, pow_zero, Nat.div_one, List.getD_cons_zero]
      rw [Nat.add_mul_mod_self_left, Nat.mod_eq_of_lt (h v (by simp))]
    | succ j =>
      have hv := h v (by simp)
      simp only [valsToNat, List.getD_cons_succ, pow_succ]
      rw [Nat.mul_comm (B ^ j) B, ← Nat.div_div_eq_div_mul,
        Nat.add_mul_div_left _ _ hB, Nat.div_eq_of_lt hv, Nat.zero_add]
      exact ih j (fun x hx => h x (by simp [hx])) (by simpa using hj)

theorem packFold_eq (bits : Nat) (vs : List Nat) :
    ∀ (i long0 : Nat), (∀ v ∈ vs, v < 2 ^ bits) → long0 < 2 ^ (i * bits) →
    packFold bits vs i long0 = long0 + 2 ^ (i * bits) * valsToNat (2 ^ bits) vs := by
  induction vs with
  | nil => intro i long0 _ _; simp [packFold, valsToNat]
  | cons v vs ih =>
    intro i long0 hv h0
    have hvb := hv v (by simp)
    simp only [packFold, valsToNat]
    have hstep : long0 ||| (v <<< (i * bits)) = long0 + v * 2 ^ (i * bits) :=
      lor_shiftLeft_eq_add h0
    rw [hstep]
    have hlt : long0 + v * 2 ^ (i * bits) < 2 ^ ((i + 1) * bits) := by
      have h1 : long0 + v * 2 ^ (i * bits) < (v + 1) * 2 ^ (i * bits) := by
        have : (v + 1) * 2 ^ (i * bits) = v * 2 ^ (i * bits) + 2 ^ (i * bits) := by ring
        omega
      have h2 : (v + 1) * 2 ^ (i * bits) ≤ 2 ^ bits * 2 ^ (i * bits) :=
        Nat.mul_le_mul_right _ (by omega)
      calc long0 + v * 2 ^ (i * bits) < 2 ^ bits * 2 ^ (i * bits) := lt_of_lt_of_le h1 h2
        _ = 2 ^ ((i + 1) * bits) := by rw [← pow_add]; ring_nf
    rw [ih (i + 1) _ (fun x hx => hv x (by simp [hx])) hlt]
    have hpow : 2 ^ ((i + 1) * bits) = 2 ^ (i * bits) * 2 ^ bits := by
      rw [← pow_add]; ring_nf
    rw [hpow]
    ring

theorem packFold_lt (bits : Nat) (vs : List Nat) (hv : ∀ v ∈ vs, v < 2 ^ bits)
    (hlen : vs.length * bits ≤ 64) :
    packFold bits vs 0 0 < 2 ^ 64 := by
  rw [packFold_eq bits vs 0 0 hv (by simp)]
  simp only [Nat.zero_mul, pow_zero, Nat.one_mul, Nat.zero_add]
  calc valsToNat (2 ^ bits) vs < (2 ^ bits) ^ vs.length :=
        valsToNat_lt _ (Nat.two_pow_pos bits) vs hv
    _ = 2 ^ (vs.length * bits) := by rw [← pow_mul, Nat.mul_comm]
    _ ≤ 2 ^ 64 := Nat.pow_le_pow_right (by norm_num) hlen

end McWorld

namespace McWorld

theorem chunksOf_getD {α : Type} (n : Nat) (hn : 0 < n) (d : α) :
    ∀ (p : Nat) (l : List α), p < l.length →
      ((chunksOf n l).getD (p / n) []).getD (p % n) d = l.getD p d ∧
      p % n < ((chunksOf n l).getD (p / n) []).length := by
  intro p
  induction p using Nat.strong_induction_on with
  | _ p ih =>
    intro l hp
    cases l with
    | nil => simp at hp
    | cons a as =>
      rw [chunksOf_cons n hn]
      by_cases hpn : p < n
      · rw [Nat.div_eq_of_lt hpn, Nat.mod_eq_of_lt hpn]
        constructor
        · show ((a :: as).take n).getD p d = (a :: as).getD p d
          rw [List.getD_eq_getElem?_getD, List.getD_eq_getElem?_getD, List.getElem?_take,
            if_pos hpn]
        · show p < ((a :: as).take n).length
          rw [List.length_take]
          exact lt_min hpn hp
      · push_neg at hpn
        have hdiv : p / n = (p - n) / n + 1 := by
          rw [Nat.div_eq_sub_div hn hpn]
        have hmod : p % n = (p - n) % n := Nat.mod_eq_sub_mod hpn
        have hlen : p - n < ((a :: as).drop n).length := by
          rw [List.length_drop]
          omega
        have hrec := ih (p - n) (by omega) ((a :: as).drop n) hlen
        rw [hdiv, hmod]
        simp only [List.getD_cons_succ]
        refine ⟨hrec.1.trans ?_, hrec.2⟩
        rw [List.getD_eq_getElem?_getD, List.getD_eq_getElem?_getD, List.getElem?_drop]
        congr 2
        omega

theorem findIdx?_of_mem {α : Type} (p : α → Bool) (l : List α)
    (h : ∃ a ∈ l, p a = true) :
    l.findIdx? p = some (l.findIdx p) ∧ l.findIdx p < l.length ∧
    ∃ a, listGet? l (l.findIdx p) = some a ∧ p a = true := by
  induction l with
  | nil => simp at h
  | cons x xs ih =>
    by_cases hx : p x
    · refine ⟨by simp [List.findIdx?_cons, hx, List.findIdx_cons], ?_, ?_⟩
      · simp [List.findIdx_cons, hx]
      · exact ⟨x, by simp [List.findIdx_cons, hx, listGet?], hx⟩
    · have hxs : ∃ a ∈ xs, p a = true := by
        rcases h with ⟨a, ha, hpa⟩
        rcases List.mem_cons.mp ha with rfl | ha'
        · exact absurd hpa (by simp [hx])
        · exact ⟨a, ha', hpa⟩
      have ihx := ih hxs
      refine ⟨?_, ?_, ?_⟩
      · rw [List.findIdx?_cons, if_neg (by simp [hx]), List.findIdx?_succ, ihx.1]
        simp [List.findIdx_cons, hx]
      · simp only [List.findIdx_cons, hx, cond_false, List.length_cons]
        omega
      · rcases ihx.2.2 with ⟨a, ha1, ha2⟩
        refine ⟨a, ?_, ha2⟩
        simp only [List.findIdx_cons, hx, cond_false]
        simpa [listGet?] using ha1

theorem dedupAdd_mem {pal : List Block} {b : Block} :
    ∀ x, x ∈ dedupAdd pal b ↔ x ∈ pal ∨ x = b := by
  intro x
  rw [dedupAdd]
  by_cases hb : b ∈ pal
  · rw [if_pos (by simpa using hb)]
    constructor
    · exact Or.inl
    · rintro (h | rfl)
      · exact h
      · exact hb
  · rw [if_neg (by simpa using hb)]
    simp [List.mem_append]

theorem foldl_dedupAdd_mem (used : List Block) :
    ∀ (pal : List Block) (x : Block),
      x ∈ used.foldl dedupAdd pal ↔ x ∈ pal ∨ x ∈ used := by
  induction used with
  | nil => simp
  | cons b bs ih =>
    intro pal x
    rw [List.foldl_cons, ih]
    rw [dedupAdd_mem]
    simp only [List.mem_cons]
    tauto

theorem foldl_dedupAdd_length (used : List Block) :
    ∀ pal : List Block,
      (used.foldl dedupAdd pal).length ≤ pal.length + used.length := by
  induction used with
  | nil => simp
  | cons b bs ih =>
    intro pal
    rw [List.foldl_cons]
    have h1 : (dedupAdd pal b).length ≤ pal.length + 1 := by
      rw [dedupAdd]
      by_cases hb : b ∈ pal
      · rw [if_pos (by simpa using hb)]
        omega
      · rw [if_neg (by simpa using hb)]
        simp
    have := ih (dedupAdd pal b)
    simp only [List.length_cons]
    omega

theorem foldl_dedupAdd_ne_nil (used : List Block) (hne : used ≠ []) (pal : List Block) :
    used.foldl dedupAdd pal ≠ [] := by
  intro hcontra
  cases used with
  | nil => exact hne rfl
  | cons b bs =>
    have : b ∈ bs.foldl dedupAdd (dedupAdd pal b) := by
      rw [foldl_dedupAdd_mem]
      left
      rw [dedupAdd_mem]
      right
      rfl
    rw [List.foldl_cons] at hcontra
    rw [hcontra] at this
    simp at this

end McWorld

namespace McWorld

theorem pass1Go_ok (oldPal : List Block) (bl : List Nat) :
    ∀ (pal : List Block) (cnt : Nat), (∀ bi ∈ bl, bi < oldPal.length) →
    Section.pass1Go oldPal bl pal cnt = .ok
      ((bl.map (fun bi => oldPal.getD bi Block.default)).foldl dedupAdd pal,
       cnt + (bl.map (fun bi => oldPal.getD bi Block.default)).countP
         (fun b => !(b.identifier == "minecraft:air"))) := by
  induction bl with
  | nil => intro pal cnt _; simp [Section.pass1Go]
  | cons bi bis ih =>
    intro pal cnt h
    have hbi : bi < oldPal.length := h bi (by simp)
    rw [Section.pass1Go, listGet?_eq_some_getD Block.default hbi]
    dsimp only
    rw [ih _ _ fun x hx => h x (by simp [hx])]
    refine congrArg _ ?_
    refine congrArg₂ Prod.mk ?_ ?_
    · rw [List.map_cons, List.foldl_cons]
      rfl
    · rw [List.map_cons, List.countP_cons]
      by_cases ha : (oldPal.getD bi Block.default).identifier = "minecraft:air" <;>
        simp [ha] <;> omega

theorem nonAirCount_eq (s : Section) :
    nonAirCount s = (usedBlocks s).countP (fun b => !(b.identifier == "minecraft:air")) := by
  rw [nonAirCount, usedBlocks, List.countP_map]
  rfl

theorem usedPalette_eq (s : Section) (h : ∀ bi ∈ s.blocks, bi < s.palette.length) :
    usedPalette s = (usedBlocks s).foldl dedupAdd [] := by
  rw [usedPalette, pass1Go_ok s.palette s.blocks [] 0 h]
  rfl

theorem packIndirectGo_ok (oldPal newPal : List Block) (bits : Nat) (c : List Nat) :
    ∀ (i long : Nat),
    (∀ bi ∈ c, bi < oldPal.length ∧ oldPal.getD bi Block.default ∈ newPal) →
    Section.packIndirectGo oldPal newPal bits c i long =
      .ok (packFold bits (c.map (pidxOf oldPal newPal)) i long) := by
  induction c with
  | nil => intro i long _; simp [Section.packIndirectGo, packFold]
  | cons bi bis ih =>
    intro i long h
    have hbi := h bi (by simp)
    rw [Section.packIndirectGo, listGet?_eq_some_getD Block.default hbi.1]
    dsimp only
    have hmem : ∃ a ∈ newPal, (fun e => decide (e = oldPal.getD bi Block.default)) a = true := by
      exact ⟨_, hbi.2, by simp⟩
    have hf := findIdx?_of_mem _ newPal hmem
    rw [hf.1]
    dsimp only
    rw [ih _ _ fun x hx => h x (by simp [hx])]
    rfl

theorem packDirectGo_ok (oldPal : List Block) (f : Block → Int) (c : List Nat) :
    ∀ (i long : Nat), c.length + i ≤ 4 →
    (∀ bi ∈ c, bi < oldPal.length ∧ toU64 (f (oldPal.getD bi Block.default)) < 524288) →
    Section.packDirectGo oldPal f 15 c i long =
      .ok (packFold 15 (c.map fun bi => toU64 (f (oldPal.getD bi Block.default))) i long) := by
  induction c with
  | nil => intro i long _ _; simp [Section.packDirectGo, packFold]
  | cons bi bis ih =>
    intro i long hlen h
    have hbi := h bi (by simp)
    rw [Section.packDirectGo, listGet?_eq_some_getD Block.default hbi.1]
    dsimp only
    have hile : i * 15 ≤ 45 := by
      simp only [List.length_cons] at hlen
      omega
    have hsh : toU64 (f (oldPal.getD bi Block.default)) <<< (i * 15) <
        18446744073709551616 := by
      rw [Nat.shiftLeft_eq]
      have h2 : (2 : Nat) ^ (i * 15) ≤ 2 ^ 45 := Nat.pow_le_pow_right (by norm_num) hile
      calc toU64 (f (oldPal.getD bi Block.default)) * 2 ^ (i * 15)
          < 524288 * 2 ^ (i * 15) := by
            have := Nat.two_pow_pos (i * 15)
            exact Nat.mul_lt_mul_of_lt_of_le hbi.2 (le_refl _) this
        _ ≤ 524288 * 2 ^ 45 := Nat.mul_le_mul_left _ h2
        _ = 18446744073709551616 := by norm_num
    rw [Nat.mod_eq_of_lt hsh]
    rw [ih _ _ (by simp only [List.length_cons] at hlen; omega)
      (fun x hx => h x (by simp [hx]))]
    rfl

end McWorld

namespace McWorld

theorem varIntAux_dec : ∀ (fuel u : Nat) (rest : List Nat), u < 128 ^ (fuel + 1) →
    varIntDecAux (fuel + 1) (varIntAux (fuel + 1) u ++ rest) = some (u, rest) := by
  intro fuel
  induction fuel with
  | zero =>
    intro u rest hu
    have hu' : u < 128 := by simpa using hu
    rw [varIntAux, if_pos hu']
    simp [varIntDecAux, hu']
  | succ fuel ih =>
    intro u rest hu
    rw [varIntAux]
    by_cases h128 : u < 128
    · simp [varIntDecAux, h128]
    · rw [if_neg h128]
      have hdiv : u / 128 < 128 ^ (fuel + 1) := by
        rw [Nat.div_lt_iff_lt_mul (by norm_num)]
        calc u < 128 ^ (fuel + 1 + 1) := hu
          _ = 128 ^ (fuel + 1) * 128 := by rw [pow_succ]
      show varIntDecAux (fuel + 2) ((u % 128 + 128) :: (varIntAux (fuel + 1) (u / 128) ++ rest)) = _
      rw [varIntDecAux]
      have hge : ¬ (u % 128 + 128 < 128) := by omega
      rw [if_neg hge, ih (u / 128) rest hdiv]
      have heq : u % 128 + 128 * (u / 128) = u := Nat.mod_add_div u 128
      simp only [Nat.add_sub_cancel]
      simp [heq]

theorem toI32_toU32 (i : Int) (h1 : -2147483648 ≤ i) (h2 : i < 2147483648) :
    toI32 (toU32 i) = i := by
  rw [toU32, toI32]
  by_cases hpos : 0 ≤ i
  · have hmod : i % 4294967296 = i := Int.emod_eq_of_lt hpos (by omega)
    rw [hmod]
    have htn : ((i.toNat : Int)) = i := Int.toNat_of_nonneg hpos
    have hlt : i.toNat % 4294967296 = i.toNat := by
      refine Nat.mod_eq_of_lt ?_
      omega
    rw [hlt]
    rw [if_pos (by omega)]
    exact htn
  · push_neg at hpos
    have hmod : i % 4294967296 = i + 4294967296 := by omega
    rw [hmod]
    have hnn : (0 : Int) ≤ i + 4294967296 := by omega
    have htn : (((i + 4294967296).toNat : Int)) = i + 4294967296 :=
      Int.toNat_of_nonneg hnn
    have hlt : (i + 4294967296).toNat % 4294967296 = (i + 4294967296).toNat := by
      refine Nat.mod_eq_of_lt ?_
      omega
    rw [hlt, if_neg (by omega)]
    omega

end McWorld

namespace McWorld

theorem varIntDec_bytes (i : Int) (rest : List Nat)
    (h1 : -2147483648 ≤ i) (h2 : i < 2147483648) :
    varIntDec (VarInt.bytes i ++ rest) = some (i, rest) := by
  rw [VarInt.bytes, varIntDec]
  have hu : toU32 i < 128 ^ (4 + 1) := by
    have hlt : toU32 i < 4294967296 := by
      rw [toU32]
      omega
    calc toU32 i < 4294967296 := hlt
      _ ≤ 128 ^ (4 + 1) := by norm_num
  have hdec := varIntAux_dec 4 (toU32 i) rest hu
  norm_num at hdec ⊢
  rw [hdec]
  simp [toI32_toU32 i h1 h2]

theorem varIntDec_bytes_nat (n : Nat) (rest : List Nat) (h : n < 2147483648) :
    varIntDec (VarInt.bytes (n : Int) ++ rest) = some ((n : Int), rest) :=
  varIntDec_bytes _ rest (by omega) (by omega)

theorem varIntDecs_flatMap (f : Block → Int) (pal : List Block) (rest : List Nat)
    (h : ∀ b ∈ pal, -2147483648 ≤ f b ∧ f b < 2147483648) :
    varIntDecs pal.length ((pal.flatMap fun e => VarInt.bytes (f e)) ++ rest) =
      some (pal.map f, rest) := by
  induction pal with
  | nil => simp [varIntDecs]
  | cons b bs ih =>
    have hb := h b (by simp)
    rw [List.flatMap_cons, List.length_cons, varIntDecs, List.append_assoc,
      varIntDec_bytes (f b) _ hb.1 hb.2]
    dsimp only
    rw [ih fun x hx => h x (by simp [hx])]
    rfl

theorem u64OfBytes_u64BE (v : Nat) (h : v < 18446744073709551616) :
    (((((((v >>> 56 &&& 255) * 256 + (v >>> 48 &&& 255)) * 256 + (v >>> 40 &&& 255)) * 256 +
      (v >>> 32 &&& 255)) * 256 + (v >>> 24 &&& 255)) * 256 + (v >>> 16 &&& 255)) * 256 +
      (v >>> 8 &&& 255)) * 256 + (v &&& 255) = v := by
  have hand : ∀ x : Nat, x &&& 255 = x % 256 := fun x => by
    have := Nat.and_pow_two_sub_one_eq_mod x 8
    norm_num at this
    exact this
  have hshift : ∀ k : Nat, v >>> k = v / 2 ^ k := fun k => Nat.shiftRight_eq_div_pow v k
  simp only [hand, hshift]
  norm_num
  omega

theorem longsFromBytes_cons8 (k b0 b1 b2 b3 b4 b5 b6 b7 : Nat) (bs : List Nat) :
    longsFromBytes (k + 1) (b0 :: b1 :: b2 :: b3 :: b4 :: b5 :: b6 :: b7 :: bs) =
      match longsFromBytes k bs with
      | none => none
      | some (ls, r) =>
        some ((((((((b0 * 256 + b1) * 256 + b2) * 256 + b3) * 256 + b4) * 256 + b5)
          * 256 + b6) * 256 + b7) :: ls, r) := rfl

theorem longsFromBytes_flatMap (longs : List Nat) (rest : List Nat)
    (h : ∀ l ∈ longs, l < 18446744073709551616) :
    longsFromBytes longs.length (longs.flatMap u64BE ++ rest) = some (longs, rest) := by
  induction longs with
  | nil => simp [longsFromBytes]
  | cons l ls ih =>
    have hl := h l (by simp)
    rw [List.flatMap_cons, List.length_cons, List.append_assoc]
    simp only [u64BE, List.cons_append, List.nil_append]
    rw [longsFromBytes_cons8, ih fun x hx => h x (by simp [hx])]
    rw [u64OfBytes_u64BE l hl]

end McWorld

namespace McWorld

theorem ilog2Fuel_le : ∀ (fuel n : Nat), 1 ≤ n → n ≤ fuel →
    2 ^ ilog2Fuel fuel n ≤ n := by
  intro fuel
  induction fuel with
  | zero => intro n h1 h2; omega
  | succ fuel ih =>
    intro n h1 h2
    rw [ilog2Fuel]
    by_cases h : 2 ≤ n
    · rw [if_pos h, pow_succ]
      have hrec := ih (n / 2) (by omega) (by omega)
      calc 2 ^ ilog2Fuel fuel (n / 2) * 2 ≤ n / 2 * 2 := by
            exact Nat.mul_le_mul_right 2 hrec
        _ ≤ n := by omega
    · rw [if_neg h]
      simpa using h1

theorem while2powFuel_ge : ∀ (fuel n b : Nat), n - b ≤ fuel →
    n ≤ 2 ^ while2powFuel fuel n b := by
  intro fuel
  induction fuel with
  | zero =>
    intro n b h
    rw [while2powFuel]
    have hb : b < 2 ^ b := Nat.lt_two_pow b
    omega
  | succ fuel ih =>
    intro n b h
    rw [while2powFuel]
    by_cases hlt : 2 ^ b < n
    · rw [if_pos hlt]
      refine ih n (b + 1) ?_
      have hb : b < 2 ^ b := Nat.lt_two_pow b
      omega
    · rw [if_neg hlt]
      omega

theorem while2powFuel_le : ∀ (fuel n b c : Nat), b ≤ c → n ≤ 2 ^ c →
    while2powFuel fuel n b ≤ c := by
  intro fuel
  induction fuel with
  | zero => intro n b c hbc _; simpa [while2powFuel] using hbc
  | succ fuel ih =>
    intro n b c hbc hc
    rw [while2powFuel]
    by_cases hlt : 2 ^ b < n
    · rw [if_pos hlt]
      refine ih n (b + 1) c ?_ hc
      rcases Nat.lt_or_ge b c with h | h
      · omega
      · exfalso
        have hcb : 2 ^ c ≤ 2 ^ b := Nat.pow_le_pow_right (by norm_num) (by omega)
        omega
    · rw [if_neg hlt]
      exact hbc

theorem bits_needed_one : Section.bits_needed_for_palette 1 = 0 := rfl

theorem bits_needed_indirect (n : Nat) (h2 : 2 ≤ n) (h256 : n ≤ 256) :
    4 ≤ Section.bits_needed_for_palette n ∧ Section.bits_needed_for_palette n ≤ 8 ∧
    n ≤ 2 ^ Section.bits_needed_for_palette n := by
  rw [Section.bits_needed_for_palette, if_neg (by omega)]
  have hlog : 2 ^ checked_ilog2 n ≤ n := ilog2Fuel_le n n (by omega) (le_refl n)
  have hlog8 : checked_ilog2 n ≤ 8 := by
    by_contra hgt
    push_neg at hgt
    have : (2 : Nat) ^ 9 ≤ 2 ^ checked_ilog2 n := Nat.pow_le_pow_right (by norm_num) hgt
    norm_num at this
    omega
  have hw_ge : n ≤ 2 ^ while2pow n (checked_ilog2 n) :=
    while2powFuel_ge n n (checked_ilog2 n) (by omega)
  have hw_le : while2pow n (checked_ilog2 n) ≤ 8 :=
    while2powFuel_le n n (checked_ilog2 n) 8 hlog8 (by norm_num; omega)
  dsimp only
  set w := while2pow n (checked_ilog2 n) with hw
  by_cases h4 : w < 4
  · rw [if_pos h4, if_neg (by norm_num)]
    refine ⟨by norm_num, by norm_num, ?_⟩
    calc n ≤ 2 ^ w := hw_ge
      _ ≤ 2 ^ 4 := Nat.pow_le_pow_right (by norm_num) (by omega)
  · rw [if_neg h4, if_neg (by omega)]
    exact ⟨by omega, hw_le, hw_ge⟩

theorem bits_needed_direct (n : Nat) (h : 256 < n) :
    Section.bits_needed_for_palette n = 15 := by
  rw [Section.bits_needed_for_palette, if_neg (by omega)]
  dsimp only
  have hw_ge : n ≤ 2 ^ while2pow n (checked_ilog2 n) :=
    while2powFuel_ge n n (checked_ilog2 n) (by omega)
  have h9 : 8 < while2pow n (checked_ilog2 n) := by
    by_contra hle
    push_neg at hle
    have : (2 : Nat) ^ while2pow n (checked_ilog2 n) ≤ 2 ^ 8 :=
      Nat.pow_le_pow_right (by norm_num) hle
    norm_num at this
    omega
  rw [if_neg (show ¬ while2pow n (checked_ilog2 n) < 4 by omega)]
  rw [if_pos (show while2pow n (checked_ilog2 n) > 8 by omega)]

theorem bits_needed_ne_zero (n : Nat) (h : n ≠ 1) :
    Section.bits_needed_for_palette n ≠ 0 := by
  rw [Section.bits_needed_for_palette, if_neg h]
  dsimp only
  set w := while2pow n (checked_ilog2 n)
  by_cases h4 : w < 4
  · rw [if_pos h4]
    norm_num
  · rw [if_neg h4]
    split <;> omega

end McWorld

namespace McWorld

theorem getD_mem {α : Type} {l : List α} {n : Nat} (d : α) (h : n < l.length) :
    l.getD n d ∈ l := by
  rw [List.getD_eq_getElem l d h]
  exact List.getElem_mem h

theorem extractLSB_packed (bits : Nat) (hb : 0 < bits) (hble : bits ≤ 64)
    (vals : List Nat) (hv : ∀ v ∈ vals, v < 2 ^ bits) (p : Nat) (hp : p < vals.length) :
    extractLSB bits ((chunksOf (64 / bits) vals).map (fun c => packFold bits c 0 0)) p =
      vals.getD p 0 := by
  have hepl : 0 < 64 / bits := Nat.div_pos hble hb
  have hidx := chunksOf_getD (64 / bits) hepl (0 : Nat) p vals hp
  rw [extractLSB]
  have hdflt : (0 : Nat) = packFold bits [] 0 0 := rfl
  rw [show ((chunksOf (64 / bits) vals).map (fun c => packFold bits c 0 0)).getD
        (p / (64 / bits)) 0 =
      packFold bits ((chunksOf (64 / bits) vals).getD (p / (64 / bits)) []) 0 0 by
    rw [hdflt]
    exact List.getD_map _ _ _]
  set chunk := (chunksOf (64 / bits) vals).getD (p / (64 / bits)) [] with hchunk
  have hinrange : p / (64 / bits) < (chunksOf (64 / bits) vals).length := by
    by_contra hge
    push_neg at hge
    have : chunk = [] := by
      rw [hchunk]
      exact List.getD_eq_default _ _ hge
    rw [this] at hidx
    simp at hidx
  have hckmem : chunk ∈ chunksOf (64 / bits) vals := getD_mem [] hinrange
  have hcv : ∀ v ∈ chunk, v < 2 ^ bits := fun v hvc =>
    hv v ((chunksOf_mem_le _ hepl vals chunk hckmem).2 v hvc)
  rw [packFold_eq bits chunk 0 0 hcv (by simp)]
  simp only [Nat.zero_mul, pow_zero, Nat.one_mul, Nat.zero_add]
  rw [Nat.shiftRight_eq_div_pow, Nat.and_pow_two_sub_one_eq_mod,
    show (2 : Nat) ^ (bits * (p % (64 / bits))) = (2 ^ bits) ^ (p % (64 / bits)) by
      rw [← pow_mul],
    valsToNat_digit (2 ^ bits) (Nat.two_pow_pos bits) chunk _ hcv hidx.2]
  exact hidx.1

theorem u16BE_decode (count : Nat) (h : count < 65536) :
    (count >>> 8 &&& 255) * 256 + (count &&& 255) = count := by
  have h1 : count >>> 8 = count / 256 := by
    rw [Nat.shiftRight_eq_div_pow]
  have h2 : ∀ x : Nat, x &&& 255 = x % 256 := fun x => by
    have := Nat.and_pow_two_sub_one_eq_mod x 8
    norm_num at this
    exact this
  rw [h1, h2, h2]
  have h3 : count / 256 < 256 := by omega
  rw [Nat.mod_eq_of_lt h3]
  omega

theorem grid_eq_map_used (s : Section) (f : Block → Int) (hlen : s.blocks.length = 4096) :
    (List.range 4096).map (fun p => f (cellBlock s p)) = (usedBlocks s).map f := by
  have hul : (usedBlocks s).length = 4096 := by
    rw [usedBlocks, List.length_map, hlen]
  have hcell : ∀ p, p < 4096 → cellBlock s p = (usedBlocks s).getD p Block.default := by
    intro p hp
    have h1 : p < s.blocks.length := by omega
    have h2 : p < (usedBlocks s).length := by omega
    rw [cellBlock, usedBlocks]
    rw [List.getD_eq_getElem _ _ (by rw [List.length_map]; omega : p <
        (s.blocks.map fun bi => s.palette.getD bi Block.default).length)]
    rw [List.getElem_map, List.getD_eq_getElem s.blocks 0 h1]
  calc (List.range 4096).map (fun p => f (cellBlock s p))
      = (List.range (usedBlocks s).length).map
          (fun p => f ((usedBlocks s).getD p Block.default)) := by
        rw [hul]
        refine List.map_congr_left fun p hp => ?_
        rw [hcell p (by simpa using List.mem_range.mp hp)]
    _ = ((List.range (usedBlocks s).length).map
          (fun p => (usedBlocks s).getD p Block.default)).map f := by
        rw [List.map_map]
        rfl
    _ = (usedBlocks s).map f := by rw [map_range_getD]

end McWorld

namespace McWorld

theorem network_data_setup (s : Section) (hidx : ∀ bi ∈ s.blocks, bi < s.palette.length) :
    Section.pass1Go s.palette s.blocks [] 0 = .ok (usedPalette s, nonAirCount s) := by
  rw [pass1Go_ok _ _ [] 0 hidx, usedPalette_eq s hidx, nonAirCount_eq]
  rw [usedBlocks]
  norm_num

theorem nonAirCount_le (s : Section) : nonAirCount s ≤ s.blocks.length :=
  List.countP_le_length _

theorem usedBlocks_subset_usedPalette (s : Section)
    (hidx : ∀ bi ∈ s.blocks, bi < s.palette.length) :
    ∀ b ∈ usedBlocks s, b ∈ usedPalette s := by
  intro b hb
  rw [usedPalette_eq s hidx, foldl_dedupAdd_mem]
  exact Or.inr hb

theorem network_data_single (s : Section) (f : Block → Int)
    (hlen : s.blocks.length = 4096)
    (hidx : ∀ bi ∈ s.blocks, bi < s.palette.length)
    (hone : (usedPalette s).length = 1)
    (hf : ∀ b, -2147483648 ≤ f b ∧ f b < 2147483648) :
    networkRoundTrips s f := by
  obtain ⟨b0, hpal⟩ : ∃ b0, usedPalette s = [b0] := by
    cases hup : usedPalette s with
    | nil => rw [hup] at hone; simp at hone
    | cons x xs =>
      rw [hup] at hone
      simp at hone
      exact ⟨x, by rw [hone]⟩
  have hcnt : nonAirCount s < 65536 := by
    have := nonAirCount_le s
    omega
  rw [networkRoundTrips, Section.network_data, network_data_setup s hidx]
  dsimp only
  rw [hpal]
  refine ⟨_, rfl, ?_⟩
  have hb0 := hf b0
  rw [show Section.bits_needed_for_palette [b0].length = 0 from rfl]
  simp only [u16BE, List.cons_append, List.append_assoc, List.nil_append]
  simp only [networkDecode, List.getElem_cons_zero]
  rw [if_pos trivial]
  rw [varIntDec_bytes (f b0) _ hb0.1 hb0.2]
  dsimp only
  rw [u16BE_decode _ hcnt]
  refine congrArg _ (congrArg _ ?_)
  rw [grid_eq_map_used s f hlen]
  refine (List.eq_replicate_iff.mpr ⟨?_, ?_⟩).symm
  · rw [List.length_map, usedBlocks, List.length_map, hlen]
  · intro x hx
    rcases List.mem_map.mp hx with ⟨b, hb, rfl⟩
    have : b ∈ usedPalette s := usedBlocks_subset_usedPalette s hidx b hb
    rw [hpal] at this
    simp at this
    rw [this]

end McWorld

namespace McWorld

theorem pidxOf_lt (s : Section) (hidx : ∀ bi ∈ s.blocks, bi < s.palette.length)
    (bi : Nat) (hbi : bi ∈ s.blocks) :
    pidxOf s.palette (usedPalette s) bi < (usedPalette s).length ∧
    ∃ a, listGet? (usedPalette s) (pidxOf s.palette (usedPalette s) bi) = some a ∧
      a = s.palette.getD bi Block.default := by
  have hmem : s.palette.getD bi Block.default ∈ usedPalette s := by
    refine usedBlocks_subset_usedPalette s hidx _ ?_
    rw [usedBlocks]
    exact List.mem_map.mpr ⟨bi, hbi, rfl⟩
  have hex : ∃ a ∈ usedPalette s,
      (fun e => decide (e = s.palette.getD bi Block.default)) a = true :=
    ⟨_, hmem, by simp⟩
  have hf := findIdx?_of_mem _ (usedPalette s) hex
  refine ⟨hf.2.1, ?_⟩
  rcases hf.2.2 with ⟨a, ha1, ha2⟩
  exact ⟨a, ha1, by simpa using ha2⟩

theorem network_data_indirect (s : Section) (f : Block → Int)
    (hlen : s.blocks.length = 4096)
    (hidx : ∀ bi ∈ s.blocks, bi < s.palette.length)
    (h2 : 2 ≤ (usedPalette s).length) (h256 : (usedPalette s).length ≤ 256)
    (hf : ∀ b, -2147483648 ≤ f b ∧ f b < 2147483648) :
    networkRoundTrips s f := by
  obtain ⟨hb4, hb8, hbpow⟩ := bits_needed_indirect _ h2 h256
  set nb := Section.bits_needed_for_palette (usedPalette s).length with hnb
  have hbpos : 0 < nb := by omega
  have hble : nb ≤ 64 := by omega
  have hepl : 0 < 64 / nb := Nat.div_pos hble hbpos
  -- the per-cell new-palette index and the packed index list
  set pidx := pidxOf s.palette (usedPalette s) with hpidx
  set vals := s.blocks.map pidx with hvals
  have hvlt : ∀ v ∈ vals, v < 2 ^ nb := by
    intro v hv
    rcases List.mem_map.mp hv with ⟨bi, hbi, rfl⟩
    rw [hpidx]
    have := (pidxOf_lt s hidx bi hbi).1
    omega
  -- the encoder's long list
  have hmap : mapPOutN (fun c => Section.packIndirectGo s.palette (usedPalette s) nb c 0 0)
      (chunksOf (64 / nb) s.blocks) =
      .ok ((chunksOf (64 / nb) vals).map (fun c => packFold nb c 0 0)) := by
    rw [hvals, chunksOf_map pidx _ hepl, List.map_map]
    refine mapPOutN_ok_map _ _ _ ?_
    intro c hc
    have hsub := (chunksOf_mem_le _ hepl s.blocks c hc).2
    rw [Function.comp_apply, packIndirectGo_ok s.palette (usedPalette s) nb c 0 0 ?_]
    intro bi hbi
    refine ⟨hidx bi (hsub bi hbi), ?_⟩
    refine usedBlocks_subset_usedPalette s hidx _ ?_
    rw [usedBlocks]
    exact List.mem_map.mpr ⟨bi, hsub bi hbi, rfl⟩
  set longs := (chunksOf (64 / nb) vals).map (fun c => packFold nb c 0 0) with hlongs
  have hlongs64 : ∀ l ∈ longs, l < 18446744073709551616 := by
    intro l hl
    rcases List.mem_map.mp hl with ⟨c, hc, rfl⟩
    have hcl := chunksOf_mem_le _ hepl vals c hc
    have hcv : ∀ v ∈ c, v < 2 ^ nb := fun v hv => hvlt v (hcl.2 v hv)
    have := packFold_lt nb c hcv (le_trans (Nat.mul_le_mul_right nb hcl.1)
      (Nat.div_mul_le_self 64 nb))
    simpa using this
  have hcnt : nonAirCount s < 65536 := by
    have := nonAirCount_le s
    omega
  rw [networkRoundTrips, Section.network_data, network_data_setup s hidx]
  dsimp only
  rw [← hnb, if_neg (by omega), if_pos (show 4 ≤ nb ∧ nb < 9 by omega)]
  rw [mapPOut_eq_naive, hmap]
  dsimp only
  refine ⟨_, rfl, ?_⟩
  have hvlen : vals.length = 4096 := by rw [hvals, List.length_map, hlen]
  have hLl : longs.length ≤ 4096 := by
    rw [hlongs, List.length_map]
    have := chunksOf_length_le (64 / nb) hepl vals
    omega
  have hcell : ∀ p ∈ List.range 4096,
      listGet? ((usedPalette s).map f) (extractLSB nb longs p) =
        some (f (cellBlock s p)) := by
    intro p hp
    have hp4 : p < 4096 := List.mem_range.mp hp
    have hpv : p < vals.length := by omega
    have hpb : p < s.blocks.length := by omega
    rw [hlongs, extractLSB_packed nb hbpos hble vals hvlt p hpv]
    have hgd : vals.getD p 0 = pidx (s.blocks.getD p 0) := by
      rw [hvals, List.getD_eq_getElem _ _ (show p <
            (s.blocks.map pidx).length by rw [List.length_map]; omega),
        List.getElem_map, List.getD_eq_getElem s.blocks 0 hpb]
    rw [hgd, hpidx]
    have hbmem : s.blocks.getD p 0 ∈ s.blocks := by
      rw [List.getD_eq_getElem s.blocks 0 hpb]
      exact List.getElem_mem hpb
    obtain ⟨-, a, ha1, ha2⟩ := pidxOf_lt s hidx _ hbmem
    rw [listGet?_map, ha1, ha2]
    rfl
  simp only [u16BE, List.cons_append, List.append_assoc, List.nil_append]
  simp only [networkDecode]
  rw [if_neg (show ¬ nb = 0 by omega), if_pos (show nb < 9 by omega)]
  rw [varIntDec_bytes_nat (usedPalette s).length _ (by omega)]
  dsimp only
  rw [if_neg (show ¬ ((usedPalette s).length : Int) < 0 by
    exact Int.not_lt.mpr (Int.natCast_nonneg _)), Int.toNat_natCast]
  rw [varIntDecs_flatMap f (usedPalette s) _ (fun b _ => hf b)]
  dsimp only
  rw [varIntDec_bytes_nat longs.length _ (by omega)]
  dsimp only
  rw [if_neg (show ¬ ((longs.length : Nat) : Int) < 0 by
    exact Int.not_lt.mpr (Int.natCast_nonneg _)), Int.toNat_natCast]
  rw [longsFromBytes_flatMap longs _ hlongs64]
  dsimp only
  rw [mapOpt_eq_naive, mapOptN_some_map _ (fun p => f (cellBlock s p)) _ hcell]
  dsimp only
  rw [u16BE_decode _ hcnt]

end McWorld

namespace McWorld

theorem packFold15_lt (vs : List Nat) :
    ∀ (i long : Nat), vs.length + i ≤ 4 → long < 2 ^ 64 →
    (∀ v ∈ vs, v < 524288) →
    packFold 15 vs i long < 2 ^ 64 := by
  induction vs with
  | nil =>
    intro i long _ hl _
    simpa [packFold] using hl
  | cons v vs ih =>
    intro i long hlen hl hv
    have hvv := hv v (by simp)
    have hlen' : vs.length + (i + 1) ≤ 4 := by
      simp only [List.length_cons] at hlen
      omega
    have hi : i ≤ 3 := by
      simp only [List.length_cons] at hlen
      omega
    have hsh : v <<< (i * 15) < 2 ^ 64 := by
      rw [Nat.shiftLeft_eq]
      calc v * 2 ^ (i * 15)
          < 524288 * 2 ^ 45 :=
            Nat.mul_lt_mul_of_lt_of_le hvv
              (Nat.pow_le_pow_right (by norm_num) (by omega)) (by norm_num)
        _ = 2 ^ 64 := by norm_num
    rw [packFold]
    exact ih (i + 1) _ hlen' (Nat.or_lt_two_pow hl hsh)
      (fun x hx => hv x (by simp [hx]))

theorem network_data_direct_raw (s : Section) (f : Block → Int)
    (hlen : s.blocks.length = 4096)
    (hidx : ∀ bi ∈ s.blocks, bi < s.palette.length)
    (h256lt : 256 < (usedPalette s).length)
    (hsz : ∀ bi ∈ s.blocks, toU64 (f (s.palette.getD bi Block.default)) < 524288) :
    ∃ bs, s.network_data f = .ok bs ∧
      networkDecode bs = some (nonAirCount s,
        (List.range 4096).map (fun p => (extractLSB 15 (directLongs s f) p : Int))) := by
  have hmap : mapPOutN (fun c => Section.packDirectGo s.palette f 15 c 0 0)
      (chunksOf 4 s.blocks) = .ok (directLongs s f) := by
    rw [directLongs, chunksOf_map _ _ (by omega), List.map_map]
    refine mapPOutN_ok_map _ _ _ ?_
    intro c hc
    have hcl := chunksOf_mem_le 4 (by omega) s.blocks c hc
    rw [Function.comp_apply, packDirectGo_ok s.palette f c 0 0 (by omega) ?_]
    intro bi hbi
    exact ⟨hidx bi (hcl.2 bi hbi), hsz bi (hcl.2 bi hbi)⟩
  have hlongs64 : ∀ l ∈ directLongs s f, l < 18446744073709551616 := by
    intro l hl
    rcases List.mem_map.mp hl with ⟨c, hc, rfl⟩
    have hcl := chunksOf_mem_le 4 (by omega)
      (s.blocks.map (fun bi => toU64 (f (s.palette.getD bi Block.default)))) c hc
    have hcv : ∀ v ∈ c, v < 524288 := by
      intro v hv
      rcases List.mem_map.mp (hcl.2 v hv) with ⟨bi, hbi, rfl⟩
      exact hsz bi hbi
    have := packFold15_lt c 0 0 (by omega) (by norm_num) hcv
    norm_num at this
    omega
  have hLl : (directLongs s f).length ≤ 4096 := by
    rw [directLongs, List.length_map]
    have h1 := chunksOf_length_le 4 (by omega)
      (s.blocks.map (fun bi => toU64 (f (s.palette.getD bi Block.default))))
    rw [List.length_map, hlen] at h1
    omega
  have hcnt : nonAirCount s < 65536 := by
    have := nonAirCount_le s
    omega
  rw [Section.network_data, network_data_setup s hidx]
  dsimp only
  rw [bits_needed_direct _ h256lt]
  rw [if_neg (show ¬ (15 : Nat) = 0 by omega),
    if_neg (show ¬ ((4 : Nat) ≤ 15 ∧ (15 : Nat) < 9) by omega)]
  rw [show (64 : Nat) / 15 = 4 from rfl]
  rw [mapPOut_eq_naive, hmap]
  dsimp only
  refine ⟨_, rfl, ?_⟩
  simp only [u16BE, List.cons_append, List.append_assoc, List.nil_append]
  simp only [networkDecode]
  rw [if_neg (show ¬ (15 : Nat) = 0 by omega), if_neg (show ¬ (15 : Nat) < 9 by omega)]
  rw [varIntDec_bytes_nat (directLongs s f).length _ (by omega)]
  dsimp only
  rw [if_neg (show ¬ (((directLongs s f).length : Nat) : Int) < 0 by
    exact Int.not_lt.mpr (Int.natCast_nonneg _)), Int.toNat_natCast]
  rw [longsFromBytes_flatMap _ _ hlongs64]
  dsimp only
  rw [u16BE_decode _ hcnt]

end McWorld

namespace McWorld

theorem network_data_direct (s : Section) (f : Block → Int)
    (hlen : s.blocks.length = 4096)
    (hidx : ∀ bi ∈ s.blocks, bi < s.palette.length)
    (h256lt : 256 < (usedPalette s).length)
    (hfid : ∀ b ∈ usedPalette s, 0 ≤ f b ∧ f b < 32768) :
    networkRoundTrips s f := by
  have hused : ∀ bi ∈ s.blocks, s.palette.getD bi Block.default ∈ usedPalette s := by
    intro bi hbi
    refine usedBlocks_subset_usedPalette s hidx _ ?_
    rw [usedBlocks]
    exact List.mem_map.mpr ⟨bi, hbi, rfl⟩
  have hsz : ∀ bi ∈ s.blocks, toU64 (f (s.palette.getD bi Block.default)) < 524288 := by
    intro bi hbi
    have := hfid _ (hused bi hbi)
    rw [toU64]
    omega
  obtain ⟨bs, henc, hdec⟩ := network_data_direct_raw s f hlen hidx h256lt hsz
  refine ⟨bs, henc, ?_⟩
  rw [hdec]
  refine congrArg _ (congrArg _ ?_)
  refine List.map_congr_left fun p hp => ?_
  have hp4 : p < 4096 := List.mem_range.mp hp
  have hpb : p < s.blocks.length := by omega
  set vals := s.blocks.map (fun bi =>
    toU64 (f (s.palette.getD bi Block.default))) with hvals
  have hvlen : vals.length = 4096 := by rw [hvals, List.length_map, hlen]
  have hvlt : ∀ v ∈ vals, v < 2 ^ 15 := by
    intro v hv
    rcases List.mem_map.mp hv with ⟨bi, hbi, rfl⟩
    have := hfid _ (hused bi hbi)
    rw [toU64]
    omega
  have hext := extractLSB_packed 15 (by norm_num) (by norm_num) vals hvlt p (by omega)
  rw [show (64 : Nat) / 15 = 4 from rfl] at hext
  rw [directLongs, ← hvals, hext]
  have hbmem : s.blocks.getD p 0 ∈ s.blocks := by
    rw [List.getD_eq_getElem s.blocks 0 hpb]
    exact List.getElem_mem hpb
  have hgd : vals.getD p 0 = toU64 (f (cellBlock s p)) := by
    rw [hvals, List.getD_eq_getElem _ _ (show p <
          (s.blocks.map (fun bi =>
            toU64 (f (s.palette.getD bi Block.default)))).length by
          rw [List.length_map]; omega),
      List.getElem_map, cellBlock, List.getD_eq_getElem s.blocks 0 hpb]
  rw [hgd]
  have hcb := hfid _ (hused _ hbmem)
  rw [show cellBlock s p = s.palette.getD (s.blocks.getD p 0) Block.default from rfl]
  rw [toU64]
  omega

end McWorld

namespace McWorld

theorem usedPalette_pos (s : Section) (hlen : s.blocks.length = 4096)
    (hidx : ∀ bi ∈ s.blocks, bi < s.palette.length) :
    1 ≤ (usedPalette s).length := by
  have hne : usedPalette s ≠ [] := by
    rw [usedPalette_eq s hidx]
    refine foldl_dedupAdd_ne_nil _ ?_ []
    rw [usedBlocks]
    intro hcontra
    have := congrArg List.length hcontra
    rw [List.length_map, hlen] at this
    simp at this
  cases hup : usedPalette s with
  | nil => exact absurd hup hne
  | cons x xs => simp

/-- C3: the `network_data` payload round-trips through the
same-generation decoder — the leading 16-bit field is the non-air count
and the decoded grid of global ids matches `id_of` of the section's grid
cell by cell — for every well-formed section (4096 cells, indices inside
the palette) and every `id_of` into the i32 range, PROVIDED that whenever
the used palette exceeds 256 entries (the direct branch) every used id
also fits its 15-bit packed field, i.e. lies in [0, 32768); without that
proviso the claim fails (see the counterexample). -/
theorem network_data_roundtrip (s : Section) (f : Block → Int)
    (hlen : s.blocks.length = 4096)
    (hidx : ∀ bi ∈ s.blocks, bi < s.palette.length)
    (hf : ∀ b, -2147483648 ≤ f b ∧ f b < 2147483648)
    (hdirect : 256 < (usedPalette s).length →
      ∀ b ∈ usedPalette s, 0 ≤ f b ∧ f b < 32768) :
    networkRoundTrips s f := by
  have hpos := usedPalette_pos s hlen hidx
  by_cases h1 : (usedPalette s).length = 1
  · exact network_data_single s f hlen hidx h1 hf
  · by_cases h256 : (usedPalette s).length ≤ 256
    · exact network_data_indirect s f hlen hidx (by omega) h256 hf
    · exact network_data_direct s f hlen hidx (by omega) (hdirect (by omega))

end McWorld

namespace McWorld

theorem foldl_dedupAdd_absorb (l : List Block) :
    ∀ pal : List Block, (∀ b ∈ l, b ∈ pal) → l.foldl dedupAdd pal = pal := by
  induction l with
  | nil => intro pal _; rfl
  | cons b bs ih =>
    intro pal h
    have hb : b ∈ pal := h b (by simp)
    rw [List.foldl_cons, dedupAdd, if_pos (by simpa using hb)]
    exact ih pal fun x hx => h x (by simp [hx])

theorem foldl_dedupAdd_fresh (l : List Block) (hl : l.Nodup) :
    ∀ pal : List Block, (∀ b ∈ l, b ∉ pal) → l.foldl dedupAdd pal = pal ++ l := by
  induction l with
  | nil => intro pal _; simp
  | cons b bs ih =>
    intro pal h
    have hb : b ∉ pal := h b (by simp)
    rw [List.foldl_cons, dedupAdd, if_neg (by simpa using hb)]
    rw [ih (List.Nodup.of_cons hl) (pal ++ [b]) ?_]
    · simp
    · intro x hx
      rw [List.mem_append, List.mem_singleton]
      push_neg
      refine ⟨h x (by simp [hx]), ?_⟩
      intro hcontra
      subst hcontra
      exact (List.nodup_cons.mp hl).1 hx

theorem pal257_nodup : palette257.Nodup := by
  rw [palette257]
  refine List.Nodup.map_on ?_ (List.nodup_range 257)
  intro x _ y _ hxy
  have := congrArg (fun b => b.properties.length) hxy
  simpa [blockN] using this

theorem s257_blocks_length : s257.blocks.length = 4096 := by
  rw [show s257.blocks = List.range 257 ++ List.replicate 3839 0 from rfl,
    List.length_append, List.length_range, List.length_replicate]

theorem s257_palette_length : s257.palette.length = 257 := by
  rw [show s257.palette = palette257 from rfl, palette257,
    List.length_map, List.length_range]

theorem s257_idx : ∀ bi ∈ s257.blocks, bi < s257.palette.length := by
  intro bi hbi
  rw [s257_palette_length]
  rw [show s257.blocks = List.range 257 ++ List.replicate 3839 0 from rfl] at hbi
  rcases List.mem_append.mp hbi with h | h
  · have := List.mem_range.mp h
    omega
  · have := List.eq_of_mem_replicate h
    omega

theorem usedPalette_s257 : usedPalette s257 = palette257 := by
  rw [usedPalette_eq s257 s257_idx]
  have hub : usedBlocks s257 = palette257 ++ List.replicate 3839 (blockN 0) := by
    rw [usedBlocks]
    rw [show s257.blocks = List.range 257 ++ List.replicate 3839 0 from rfl]
    rw [List.map_append]
    refine congrArg₂ _ ?_ ?_
    · rw [show (257 : Nat) = palette257.length from s257_palette_length.symm]
      rw [show s257.palette = palette257 from rfl]
      exact map_range_getD Block.default palette257
    · rw [List.map_replicate]
      rfl
  rw [hub, List.foldl_append]
  rw [foldl_dedupAdd_fresh palette257 pal257_nodup [] (by simp)]
  rw [List.nil_append]
  refine foldl_dedupAdd_absorb _ palette257 ?_
  intro b hb
  have := List.eq_of_mem_replicate hb
  subst this
  rw [palette257]
  exact List.mem_map.mpr ⟨0, List.mem_range.mpr (by omega), rfl⟩

end McWorld

namespace McWorld

/-- C3 counterexample: the unconditional round-trip claim is false.  The
section `s257` uses 257 distinct blocks, forcing the direct branch
(15 bits per packed entry), and the total id function `f40000` assigns
every block the global id 40000, which does not fit in 15 bits; the OR
into the long silently corrupts neighbouring fields and the decoded grid
reads back 40000 mod 2^15 = 7232 at cell 0, not 40000. -/
theorem network_data_direct_mode_not_roundtrip : ¬ networkRoundTrips s257 f40000 := by
  have h256lt : 256 < (usedPalette s257).length := by
    rw [usedPalette_s257, palette257, List.length_map, List.length_range]
    omega
  have hsz : ∀ bi ∈ s257.blocks,
      toU64 (f40000 (s257.palette.getD bi Block.default)) < 524288 := by
    intro bi _
    show toU64 40000 < 524288
    rw [toU64]
    omega
  obtain ⟨bs, henc, hdec⟩ :=
    network_data_direct_raw s257 f40000 s257_blocks_length s257_idx h256lt hsz
  have hvals : s257.blocks.map
      (fun bi => toU64 (f40000 (s257.palette.getD bi Block.default)))
      = List.replicate 4096 40000 := by
    have hfun : (fun bi => toU64 (f40000 (s257.palette.getD bi Block.default)))
        = (fun _ : Nat => (40000 : Nat)) := funext fun bi => rfl
    rw [hfun, List.map_const', s257_blocks_length]
  have hkey : extractLSB 15 (directLongs s257 f40000) 0 = 7232 := by
    rw [directLongs, hvals]
    rw [show List.replicate 4096 (40000 : Nat) = 40000 :: List.replicate 4095 40000
      from rfl]
    rw [chunksOf_cons 4 (by omega), List.map_cons, extractLSB]
    rw [show (0 : Nat) / (64 / 15) = 0 from rfl, List.getD_cons_zero,
      show (15 * (0 % (64 / 15)) : Nat) = 0 from rfl, Nat.shiftRight_zero]
    rw [show (40000 :: List.replicate 4095 (40000 : Nat)).take 4 =
      [40000, 40000, 40000, 40000] from rfl]
    decide
  intro hrt
  obtain ⟨bs', h1, h2⟩ := hrt
  rw [henc] at h1
  injection h1 with hbs
  subst hbs
  rw [hdec] at h2
  injection h2 with hpair
  have hgrid := congrArg Prod.snd hpair
  dsimp only at hgrid
  have hcell0 := (List.map_inj_left.mp hgrid) 0 (List.mem_range.mpr (by omega))
  rw [hkey] at hcell0
  rw [show f40000 (cellBlock s257 0) = 40000 from rfl] at hcell0
  norm_num at hcell0

end McWorld

namespace McWorld

/-- C3 witness: the amended round-trip theorem applied at a concrete
well-formed section (two used palette entries, hence the indirect
branch) and a concrete id function inside all the required ranges. -/
theorem network_data_roundtrip_witness : networkRoundTrips s2 fAir0 := by
  have hlen : s2.blocks.length = 4096 := by
    rw [show s2.blocks = 1 :: List.replicate 4095 0 from rfl, List.length_cons,
      List.length_replicate]
  have hidx : ∀ bi ∈ s2.blocks, bi < s2.palette.length := by
    intro bi hbi
    rw [show s2.palette.length = 2 from rfl]
    rw [show s2.blocks = 1 :: List.replicate 4095 0 from rfl] at hbi
    rcases List.mem_cons.mp hbi with rfl | h
    · omega
    · have := List.eq_of_mem_replicate h
      omega
  have hf : ∀ b, -2147483648 ≤ fAir0 b ∧ fAir0 b < 2147483648 := by
    intro b
    simp only [fAir0]
    split <;> norm_num
  have hup : usedPalette s2 = [⟨"minecraft:water", []⟩, Block.default] := by
    rw [usedPalette_eq s2 hidx]
    have hub : usedBlocks s2 =
        (⟨"minecraft:water", []⟩ : Block) :: List.replicate 4095 Block.default := by
      rw [usedBlocks, show s2.blocks = 1 :: List.replicate 4095 0 from rfl,
        List.map_cons, List.map_replicate]
      rfl
    rw [hub, List.foldl_cons]
    rw [show dedupAdd [] (⟨"minecraft:water", []⟩ : Block) =
      [(⟨"minecraft:water", []⟩ : Block)] from rfl]
    rw [show List.replicate 4095 Block.default =
      Block.default :: List.replicate 4094 Block.default from rfl, List.foldl_cons]
    rw [show dedupAdd [(⟨"minecraft:water", []⟩ : Block)] Block.default =
      [⟨"minecraft:water", []⟩, Block.default] from by decide]
    exact foldl_dedupAdd_absorb _ _
      (fun b hb => by rw [List.eq_of_mem_replicate hb]; simp)
  have hdirect : 256 < (usedPalette s2).length →
      ∀ b ∈ usedPalette s2, 0 ≤ fAir0 b ∧ fAir0 b < 32768 := by
    intro h
    rw [hup] at h
    simp at h
  exact network_data_roundtrip s2 fAir0 hlen hidx hf hdirect

end McWorld

namespace McWorld

theorem block_index_in_section_lt (p : Position) : p.block_index_in_section < 4096 := by
  rw [Position.block_index_in_section, Position.block_in_section]
  dsimp only [Position.new]
  have hrw : ∀ a : Int, a.emod 16 = a % 16 := fun _ => rfl
  rw [hrw p.y, hrw p.z, hrw p.x]
  omega

theorem get_total (s : Section) (hlen : s.blocks.length = 4096)
    (hidx : ∀ bi ∈ s.blocks, bi < s.palette.length) (pos : Position) :
    ∃ b, Section.get s pos = .ok b := by
  have hp := block_index_in_section_lt pos
  have h1 : pos.block_index_in_section < s.blocks.length := by omega
  have hmem : s.blocks.getD pos.block_index_in_section 0 ∈ s.blocks := by
    rw [List.getD_eq_getElem _ _ h1]
    exact List.getElem_mem h1
  refine ⟨s.palette.getD (s.blocks.getD pos.block_index_in_section 0) Block.default, ?_⟩
  rw [Section.get, listGet?_eq_some_getD 0 h1]
  dsimp only
  rw [listGet?_eq_some_getD Block.default (hidx _ hmem)]

theorem mapPOutN_ok_length {α β : Type} (f : α → POut β) (l : List α) :
    ∀ bs : List β, mapPOutN f l = .ok bs → bs.length = l.length := by
  induction l with
  | nil =>
    intro bs h
    rw [mapPOutN] at h
    injection h with h
    rw [← h]
    rfl
  | cons a as ih =>
    intro bs h
    rw [mapPOutN] at h
    cases hf : f a <;> rw [hf] at h
    case err e => cases h
    case panic => cases h
    case ok b =>
      dsimp only at h
      cases hm : mapPOutN f as <;> rw [hm] at h
      case err e => cases h
      case panic => cases h
      case ok bs' =>
        dsimp only at h
        injection h with h
        rw [← h]
        simp only [List.length_cons]
        rw [ih bs' hm]

theorem dedupStep_foldl_inv (bs : List Block) :
    ∀ (pal : List Block) (idxs : List Nat),
    (∀ i ∈ idxs, i < pal.length) →
    (∀ i ∈ (bs.foldl (fun st b => Section.dedupStep st.1 st.2 b) (pal, idxs)).2,
        i < (bs.foldl (fun st b => Section.dedupStep st.1 st.2 b) (pal, idxs)).1.length) ∧
    (bs.foldl (fun st b => Section.dedupStep st.1 st.2 b) (pal, idxs)).2.length
        = idxs.length + bs.length := by
  induction bs with
  | nil =>
    intro pal idxs h
    exact ⟨h, by simp⟩
  | cons b bs ih =>
    intro pal idxs h
    rw [List.foldl_cons]
    rw [show Section.dedupStep pal idxs b =
      (dedupAdd pal b, idxs ++ [(dedupAdd pal b).findIdx (fun e => e = b)]) from rfl]
    have hble : pal.length ≤ (dedupAdd pal b).length := by
      rw [dedupAdd]
      split
      · exact le_refl _
      · rw [List.length_append]
        omega
    have hbmem : b ∈ dedupAdd pal b := (dedupAdd_mem b).mpr (Or.inr rfl)
    have hfi : (dedupAdd pal b).findIdx (fun e => e = b) < (dedupAdd pal b).length :=
      (findIdx?_of_mem _ _ ⟨b, hbmem, by simp⟩).2.1
    have hinv : ∀ i ∈ idxs ++ [(dedupAdd pal b).findIdx (fun e => e = b)],
        i < (dedupAdd pal b).length := by
      intro i hi
      rcases List.mem_append.mp hi with h1 | h1
      · exact lt_of_lt_of_le (h i h1) hble
      · rw [List.mem_singleton] at h1
        subst h1
        exact hfi
    obtain ⟨ha, hb⟩ := ih (dedupAdd pal b) _ hinv
    refine ⟨ha, ?_⟩
    rw [hb, List.length_append, List.length_singleton, List.length_cons]
    omega

/-- C9: every section a successful `Section::parse_section` produces has
a nonempty palette, exactly 4096 stored indices, every index strictly
below the palette length, and consequently `Section::get` resolves every
position to a block without any out-of-bounds access. -/
theorem parse_section_invariants (tag : NbtTag) (s : Section)
    (h : Section.parse_section tag = .ok s) :
    1 ≤ s.palette.length ∧ s.blocks.length = 4096 ∧
    (∀ bi ∈ s.blocks, bi < s.palette.length) ∧
    (∀ pos : Position, ∃ b, Section.get s pos = .ok b) := by
  rw [Section.parse_section] at h
  cases h1 : tag.get "block_states" with
  | error e => rw [h1] at h; cases h
  | ok block_states =>
  rw [h1] at h
  dsimp only at h
  cases h2 : block_states.get_list "palette" with
  | error e => rw [h2] at h; cases h
  | ok palette =>
  rw [h2] at h
  dsimp only at h
  by_cases hp1 : palette.length = 1
  · rw [if_pos hp1] at h
    cases h3 : listGet? palette 0 with
    | none => rw [h3] at h; cases h
    | some p0 =>
    rw [h3] at h
    dsimp only at h
    cases h4 : p0.get_string "Name" with
    | error e => rw [h4] at h; cases h
    | ok name =>
    rw [h4] at h
    dsimp only at h
    injection h with h
    subst h
    have hlen0 : (⟨List.replicate 4096 0, [Block.fromName name]⟩ : Section).blocks.length
        = 4096 := by
      rw [show (⟨List.replicate 4096 0, [Block.fromName name]⟩ : Section).blocks
        = List.replicate 4096 0 from rfl, List.length_replicate]
    have hidx0 : ∀ bi ∈ (⟨List.replicate 4096 0, [Block.fromName name]⟩ : Section).blocks,
        bi < (⟨List.replicate 4096 0, [Block.fromName name]⟩ : Section).palette.length := by
      intro bi hbi
      have hbi0 := List.eq_of_mem_replicate hbi
      subst hbi0
      rw [show (⟨List.replicate 4096 0, [Block.fromName name]⟩ : Section).palette
        = [Block.fromName name] from rfl, List.length_singleton]
      omega
    refine ⟨?_, hlen0, hidx0, get_total _ hlen0 hidx0⟩
    rw [show (⟨List.replicate 4096 0, [Block.fromName name]⟩ : Section).palette
      = [Block.fromName name] from rfl, List.length_singleton]
  · rw [if_neg hp1] at h
    cases h3 : block_states.get_long_array "data" with
    | error e => rw [h3] at h; cases h
    | ok block_data =>
    rw [h3] at h
    dsimp only at h
    cases h4 : Section.palette_mask (Section.bits_needed_for_palette palette.length) with
    | panic => rw [h4] at h; cases h
    | err e => rw [h4] at h; cases h
    | ok pmask =>
    rw [h4] at h
    dsimp only at h
    cases h5 : mapPOut (Section.parseCell block_data palette
        (Section.bits_needed_for_palette palette.length) pmask
        (64 / Section.bits_needed_for_palette palette.length))
        (List.range 4096) with
    | panic => rw [h5] at h; cases h
    | err e => rw [h5] at h; cases h
    | ok blocks =>
    rw [h5] at h
    dsimp only at h
    injection h with h
    subst h
    have hblen : blocks.length = 4096 := by
      rw [mapPOut_eq_naive] at h5
      rw [mapPOutN_ok_length _ _ blocks h5, List.length_range]
    obtain ⟨hinv, hcnt⟩ := dedupStep_foldl_inv blocks [] [] (by simp)
    have hlen2 : (blocks.foldl (fun st b => Section.dedupStep st.1 st.2 b) ([], [])).2.length
        = 4096 := by
      rw [hcnt, hblen]
      rfl
    have hpal1 : 1 ≤ (blocks.foldl (fun st b => Section.dedupStep st.1 st.2 b) ([], [])).1.length := by
      have hne : (blocks.foldl (fun st b => Section.dedupStep st.1 st.2 b) ([], [])).2 ≠ [] := by
        intro hc
        rw [hc] at hlen2
        simp at hlen2
      obtain ⟨i, hi⟩ := List.exists_mem_of_ne_nil _ hne
      have := hinv i hi
      omega
    exact ⟨hpal1, hlen2, hinv, get_total _ hlen2 hinv⟩

end McWorld

namespace McWorld

/-- C9 witness: the invariants theorem applied at a concrete section tag
(a one-entry water palette) that `Section::parse_section` accepts. -/
theorem parse_section_invariants_witness :
    1 ≤ sC4.palette.length ∧ sC4.blocks.length = 4096 ∧
    (∀ bi ∈ sC4.blocks, bi < sC4.palette.length) ∧
    (∀ pos : Position, ∃ b, Section.get sC4 pos = .ok b) :=
  parse_section_invariants tagC4 sC4 (by rfl)

end McWorld

namespace McWorld

/-- C10 counterexample: 24 sections are not enough to keep `Chunk::get`
from panicking — a chunk holding 24 sections whose `blocks` vectors are
empty panics at the very first in-range query, because `Section::get`
indexes `blocks` and `palette` without bounds checks.  The claim's
24-section minimum is necessary but not sufficient. -/
theorem chunk_get_panics_despite_24_sections :
    chunkBad.sections.length = 24 ∧ Chunk.get chunkBad ⟨0, 0, 0⟩ = .panic := by
  constructor
  · rw [show chunkBad.sections = List.replicate 24 ⟨[], []⟩ from rfl,
      List.length_replicate]
  · rfl

/-- C10 (amended): for a chunk with at least 24 sections ALL OF WHICH
are well-formed (4096 stored indices, each inside its palette),
`Chunk::get` never panics: it returns `None` exactly when `y` is outside
`[-64, 320)`, and otherwise returns the block that section number
`(y + 64) / 16` resolves for the position. -/
theorem chunk_get_safe (c : Chunk) (pos : Position)
    (h24 : 24 ≤ c.sections.length)
    (hwf : ∀ s ∈ c.sections, s.blocks.length = 4096 ∧
      ∀ bi ∈ s.blocks, bi < s.palette.length) :
    (Chunk.get c pos = .ok none ↔ ¬(-64 ≤ pos.y ∧ pos.y < 320)) ∧
    ((-64 ≤ pos.y ∧ pos.y < 320) →
      ∃ s b, listGet? c.sections (rustDiv (pos.y + 64) 16).toNat = some s ∧
        Section.get s pos = .ok b ∧ Chunk.get c pos = .ok (some b)) := by
  by_cases hy : -64 ≤ pos.y ∧ pos.y < 320
  · have hidx : (rustDiv (pos.y + 64) 16).toNat < c.sections.length := by
      rw [rustDiv, Int.tdiv_eq_ediv (by omega) (by omega)]
      omega
    have hs : listGet? c.sections (rustDiv (pos.y + 64) 16).toNat =
        some (c.sections.getD (rustDiv (pos.y + 64) 16).toNat ⟨[], []⟩) :=
      listGet?_eq_some_getD _ hidx
    set s := c.sections.getD (rustDiv (pos.y + 64) 16).toNat ⟨[], []⟩ with hsdef
    have hsmem : s ∈ c.sections := by
      rw [hsdef, List.getD_eq_getElem _ _ hidx]
      exact List.getElem_mem hidx
    obtain ⟨hslen, hsidx⟩ := hwf s hsmem
    obtain ⟨b, hb⟩ := get_total s hslen hsidx pos
    have hget : Chunk.get c pos = .ok (some b) := by
      rw [Chunk.get, Position.section_index_in_chunk, if_neg (not_not_intro hy)]
      dsimp only
      rw [hs]
      dsimp only
      rw [hb]
    refine ⟨?_, fun _ => ⟨s, b, hs, hb, hget⟩⟩
    rw [hget]
    constructor
    · intro hcontra
      injection hcontra with hcontra
      cases hcontra
    · intro hcontra
      exact absurd hy hcontra
  · have hget : Chunk.get c pos = .ok none := by
      rw [Chunk.get, Position.section_index_in_chunk, if_pos hy]
    exact ⟨⟨fun _ => hy, fun _ => hget⟩, fun h => absurd h hy⟩

/-- C10 witness: the amended theorem applied to a chunk of 24 all-air
well-formed sections at the lowest in-range position (y = -64, read from
section 0). -/
theorem chunk_get_safe_witness :
    (Chunk.get chunkGood ⟨1, -64, 2⟩ = .ok none ↔
      ¬(-64 ≤ (⟨1, -64, 2⟩ : Position).y ∧ (⟨1, -64, 2⟩ : Position).y < 320)) ∧
    ((-64 ≤ (⟨1, -64, 2⟩ : Position).y ∧ (⟨1, -64, 2⟩ : Position).y < 320) →
      ∃ s b, listGet? chunkGood.sections
          (rustDiv ((⟨1, -64, 2⟩ : Position).y + 64) 16).toNat = some s ∧
        Section.get s (⟨1, -64, 2⟩ : Position) = .ok b ∧
        Chunk.get chunkGood ⟨1, -64, 2⟩ = .ok (some b)) := by
  refine chunk_get_safe chunkGood ⟨1, -64, 2⟩ ?_ ?_
  · rw [show chunkGood.sections = List.replicate 24 goodSection from rfl,
      List.length_replicate]
  · intro s hs
    have hseq := List.eq_of_mem_replicate hs
    subst hseq
    constructor
    · rw [show goodSection.blocks = List.replicate 4096 0 from rfl,
        List.length_replicate]
    · intro bi hbi
      have hbi0 := List.eq_of_mem_replicate hbi
      subst hbi0
      rw [show goodSection.palette = [Block.default] from rfl, List.length_singleton]
      omega

end McWorld

namespace McWorld

/-- C8: `World::get_block` error and cache behaviour.  With the file
system modelled as an oracle from region position to bytes: (1) a failed
file read on an uncached region returns `None` and leaves the cache
untouched; (2) a region parse error likewise returns `None` with the
cache untouched; (3) a query whose region is already cached is answered
from the cache with zero file reads. -/
theorem get_block_cache_behavior (fs : Position → Option (List Nat))
    (gz zl : List Nat → Except NbtParseError NbtTag) (bin : List Nat → NbtTag)
    (w : World) (pos : Position) :
    (w.lookupRegion pos.region_in_world = none →
      fs pos.region_in_world = none →
      World.get_block fs gz zl bin w pos = (.ok none, w, 1)) ∧
    (w.lookupRegion pos.region_in_world = none →
      ∀ bytes e, fs pos.region_in_world = some bytes →
      RRegion.parse_region gz zl bin bytes = .err e →
      World.get_block fs gz zl bin w pos = (.ok none, w, 1)) ∧
    (∀ r, w.lookupRegion pos.region_in_world = some r →
      World.get_block fs gz zl bin w pos = (r.getPos pos, w, 0)) := by
  refine ⟨?_, ?_, ?_⟩
  · intro hmiss hfs
    rw [World.get_block, hmiss]
    dsimp only
    rw [World.load_region, hfs]
  · intro hmiss bytes e hfs hparse
    rw [World.get_block, hmiss]
    dsimp only
    rw [World.load_region, hfs]
    dsimp only
    rw [hparse]
  · intro r hhit
    rw [World.get_block, hhit]

/-- C8 witness: the cache-behaviour theorem applied to a concrete world,
once with an empty cache over a file system with no files (a failed
read), and once with the queried region already cached (zero reads). -/
theorem get_block_cache_behavior_witness :
    (World.get_block (fun _ => none) (fun _ => .ok (NbtTag.compound "" []))
      (fun _ => .ok (NbtTag.compound "" [])) (fun _ => NbtTag.compound "" [])
      ⟨[]⟩ ⟨0, 0, 0⟩ = (.ok none, ⟨[]⟩, 1)) ∧
    (World.get_block (fun _ => none) (fun _ => .ok (NbtTag.compound "" []))
      (fun _ => .ok (NbtTag.compound "" [])) (fun _ => NbtTag.compound "" [])
      ⟨[(⟨0, 0, 0⟩, emptyRegion)]⟩ ⟨0, 0, 0⟩ =
      (emptyRegion.getPos ⟨0, 0, 0⟩, ⟨[(⟨0, 0, 0⟩, emptyRegion)]⟩, 0)) :=
  ⟨(get_block_cache_behavior (fun _ => none) (fun _ => .ok (NbtTag.compound "" []))
      (fun _ => .ok (NbtTag.compound "" [])) (fun _ => NbtTag.compound "" [])
      ⟨[]⟩ ⟨0, 0, 0⟩).1 (by rfl) (by rfl),
   ((get_block_cache_behavior (fun _ => none) (fun _ => .ok (NbtTag.compound "" []))
      (fun _ => .ok (NbtTag.compound "" [])) (fun _ => NbtTag.compound "" [])
      ⟨[(⟨0, 0, 0⟩, emptyRegion)]⟩ ⟨0, 0, 0⟩).2.2) emptyRegion (by rfl)⟩

end McWorld
